import Mathlib

/-!
go-libp2p-circuit: `util.go`

A shallow embedding of `util.go` (package `relay`): the relay usage tag
(`incrementTag`, `decrementTag`), the peer descriptor codec (`peerToPeerInfo`,
`peerInfoToPeer`), the unbuffered length-delimited reader (`delimitedReader`
with `Close`, `ReadByte`, `ReadMsg`) and the upgrader factory (`GenUpgrader`),
followed by theorems about them.

Conventions.
* A Go `[]byte` value is a `List Byte`; a slice that may be `nil` is an
  `Option (List Byte)` with `none` for `nil`.
* A Go `int` is an `Int` in the range of a 64-bit two's complement word;
  arithmetic on it wraps (`wrapInt`). A length or size (`maxSize`, `len`) is a `Nat`.
* A Go pointer that may be `nil` is an `Option`.
* A call ends in `Exec.ret` (it returns), `Exec.panic` (a run-time panic: a slice expression
  out of range, a method call on a nil interface value) or `Exec.timeout` (the loop budget
  `fuel` of the model ran out).
* Functions of imported packages whose results the code only passes on
  (`peer.IDFromBytes`, `ma.NewMultiaddrBytes`, `Multiaddr.Bytes`, `proto.Unmarshal`,
  `proto.Marshal`) are parameters; `Multiaddr.Bytes` is partial, because the call panics on a
  nil `ma.Multiaddr`. `varint.ReadUvarint`, `varint.PutUvarint`, `io.ReadFull`, `pool.Get`
  and `pool.Put` are embedded after their library sources, because what `ReadMsg` reads from
  the stream is decided inside them.
* A stream is an `io.Reader` (`Reader`). Theorems about every behaviour of a stream are over
  `Reader` or over `Script`, the streams given by what their successive `Read` calls return;
  `Stream` is the special case of a byte string of which every `Read` delivers at least one
  byte.
-/

namespace relay

abbrev Byte := UInt8

/-- Go `error` values that occur in `util.go` and in the library calls it makes.
`New msg` is the value made by `errors.New(msg)` (or any other error, named by its text). -/
inductive Error where
  | EOF
  | ErrUnexpectedEOF
  | ErrShortBuffer
  | ErrOverflow
  | ErrNotMinimal
  | New (msg : String)
  deriving DecidableEq, Repr

/-- How a call ends: it returns, it panics (slice bounds out of range, a method call on a nil
interface value), or the model's loop budget is used up before it returns. -/
inductive Exec (α : Type) where
  | ret (v : α)
  | panic
  | timeout
  deriving DecidableEq, Repr

/-! ## Relay usage tag -/

/-- Largest value of a Go `int` (64-bit). -/
def maxInt : Int := 2 ^ 63 - 1

/-- Smallest value of a Go `int` (64-bit). -/
def minInt : Int := -(2 ^ 63)

/-- Wrap-around of Go `int` arithmetic: the representative of `x` modulo `2^64`
in `[-2^63, 2^63)`. -/
def wrapInt (x : Int) : Int := (x + 2 ^ 63) % 2 ^ 64 - 2 ^ 63

/-- Values of Go type `int`. -/
def isInt (v : Int) : Prop := minInt ≤ v ∧ v ≤ maxInt

instance (v : Int) : Decidable (isInt v) := by unfold isInt; infer_instance

/-- `func incrementTag(v int) int { return v + 1 }` -/
def incrementTag (v : Int) : Int := wrapInt (v + 1)

/-- `func decrementTag(v int) int { if v > 0 { return v - 1 } else { return v } }` -/
def decrementTag (v : Int) : Int :=
  if v > 0 then wrapInt (v - 1) else v

/-- One call on a tag. -/
inductive TagOp where
  | inc
  | dec
  deriving DecidableEq, Repr

/-- Apply one call. -/
def TagOp.apply : TagOp → Int → Int
  | .inc, v => incrementTag v
  | .dec, v => decrementTag v

/-- Apply a finite sequence of calls, first call first. -/
def runTagOps : List TagOp → Int → Int
  | [], v => v
  | op :: ops, v => runTagOps ops (op.apply v)

/-- No `incrementTag` call of the sequence is applied to the largest `int`. -/
def incBelowMax : List TagOp → Int → Prop
  | [], _ => True
  | .inc :: ops, v => v < maxInt ∧ incBelowMax ops (incrementTag v)
  | .dec :: ops, v => incBelowMax ops (decrementTag v)

instance incBelowMaxDecidable : (ops : List TagOp) → (v : Int) → Decidable (incBelowMax ops v)
  | [], _ => isTrue trivial
  | .inc :: ops, v =>
    have := incBelowMaxDecidable ops (incrementTag v)
    by unfold incBelowMax; infer_instance
  | .dec :: ops, v =>
    have := incBelowMaxDecidable ops (decrementTag v)
    by unfold incBelowMax; infer_instance

/-! ## Peer descriptor codec -/

/-- `peer.ID` is a string type; `[]byte(pi.ID)` are its raw bytes. -/
abbrev ID := List Byte

/-- `pb.CircuitRelay_Peer`: the wire descriptor. -/
structure CircuitRelay_Peer where
  Id : List Byte
  Addrs : List (List Byte)
  deriving DecidableEq, Repr

/-- `peer.AddrInfo` over a type `MA` of values of the interface type `ma.Multiaddr` (the nil
interface value, if `MA` has one, included). -/
structure AddrInfo (MA : Type) where
  ID : ID
  Addrs : List MA
  deriving DecidableEq, Repr

/-- The imported functions the codec calls. -/
structure PeerLib (MA : Type) where
  /-- `peer.IDFromBytes` -/
  IDFromBytes : List Byte → Except Error ID
  /-- `ma.NewMultiaddrBytes` -/
  NewMultiaddrBytes : List Byte → Except Error MA
  /-- `addr.Bytes()` for an interface value `addr`: `none` when the call panics, as it does on
  the nil interface value. -/
  Bytes : MA → Option (List Byte)

/-- The empty value `peer.AddrInfo{}`. -/
def AddrInfo.zero {MA : Type} : AddrInfo MA := { ID := [], Addrs := [] }

/-- The loop of `peerToPeerInfo`:
`for _, addrBytes := range p.Addrs { a, err := ma.NewMultiaddrBytes(addrBytes); if err == nil { addrs = append(addrs, a) } }`,
started with the `addrs` built so far. -/
def parseAddrsLoop {MA : Type} (L : PeerLib MA) : List (List Byte) → List MA → List MA
  | [], addrs => addrs
  | addrBytes :: more, addrs =>
    match L.NewMultiaddrBytes addrBytes with
    | .ok a => parseAddrsLoop L more (addrs ++ [a])
    | .error _ => parseAddrsLoop L more addrs

/-- `func peerToPeerInfo(p *pb.CircuitRelay_Peer) (peer.AddrInfo, error)`;
the second component is the returned `error` (`none` for `nil`). -/
def peerToPeerInfo {MA : Type} (L : PeerLib MA) (p : Option CircuitRelay_Peer) :
    AddrInfo MA × Option Error :=
  match p with
  | none => (AddrInfo.zero, some (Error.New "nil peer"))
  | some p =>
    match L.IDFromBytes p.Id with
    | .error err => (AddrInfo.zero, some err)
    | .ok id =>
      let addrs := parseAddrsLoop L p.Addrs []
      ({ ID := id, Addrs := addrs }, none)

/-- The loop of `peerInfoToPeer`: `for i, addr := range pi.Addrs { addrs[i] = addr.Bytes() }`,
from index `i` on. It panics at the first `addr` on which `addr.Bytes()` panics. -/
def fillAddrsLoop {MA : Type} (L : PeerLib MA) :
    Nat → List MA → List (List Byte) → Exec (List (List Byte))
  | _, [], addrs => .ret addrs
  | i, addr :: more, addrs =>
    match L.Bytes addr with
    | none => .panic
    | some bs => fillAddrsLoop L (i + 1) more (addrs.set i bs)

/-- `func peerInfoToPeer(pi peer.AddrInfo) *pb.CircuitRelay_Peer`; the result is a pointer
(`none` for `nil`). -/
def peerInfoToPeer {MA : Type} (L : PeerLib MA) (pi : AddrInfo MA) :
    Exec (Option CircuitRelay_Peer) :=
  match fillAddrsLoop L 0 pi.Addrs (List.replicate pi.Addrs.length []) with
  | .panic => .panic
  | .timeout => .timeout
  | .ret addrs => .ret (some { Id := pi.ID, Addrs := addrs })

/-- The entries of `addrs` that `ma.NewMultiaddrBytes` accepts. -/
def wellFormed {MA : Type} (L : PeerLib MA) (addrBytes : List Byte) : Bool :=
  match L.NewMultiaddrBytes addrBytes with
  | .ok _ => true
  | .error _ => false

/-- The parsed value of an entry, if it parses. -/
def parsedAddr {MA : Type} (L : PeerLib MA) (addrBytes : List Byte) : Option MA :=
  match L.NewMultiaddrBytes addrBytes with
  | .ok a => some a
  | .error _ => none

/-- A toy instance of the imported functions, used to evaluate the codec on concrete
descriptors: an identity is accepted when it is not empty, and a multiaddr is a byte string
that starts with the byte 4. -/
def toyLib : PeerLib (List Byte) where
  IDFromBytes := fun b => if b = [] then .error (Error.New "multihash too short") else .ok b
  NewMultiaddrBytes := fun b =>
    match b with
    | 4 :: _ => .ok b
    | _ => .error (Error.New "invalid multiaddr")
  Bytes := fun a => some a

/-- The toy instance with a nil interface value added: a multiaddr value is `none` (nil) or a
byte string that starts with the byte 4; `Bytes` panics on nil. -/
def toyLibNil : PeerLib (Option (List Byte)) where
  IDFromBytes := toyLib.IDFromBytes
  NewMultiaddrBytes := fun b =>
    match toyLib.NewMultiaddrBytes b with
    | .ok a => .ok (some a)
    | .error e => .error e
  Bytes := fun a => a

/-! ## Streams, the buffer pool and the delimited reader -/

/-- An `io.Reader` with state `σ`. `Read s n` is a call `Read(p)` with `len(p) = n` in state
`s`: the bytes stored into `p[:k]` (so `k` is the returned count), the returned error and the
next state. `Read_le` is the interface's `0 <= k <= len(p)`. -/
structure Reader (σ : Type) where
  Read : σ → Nat → List Byte × Option Error × σ
  Read_le : ∀ s n, (Read s n).1.length ≤ n

/-- The shared buffer pool, observed through the buffers handed to `pool.Put`, oldest first. -/
structure Pool where
  released : List (List Byte)
  deriving DecidableEq, Repr

namespace pool

/-- `pool.Put(buf)` -/
def Put (p : Pool) (buf : List Byte) : Pool := { released := p.released ++ [buf] }

/-- `pool.Get(length)`: `nil` for length 0, otherwise a slice of exactly `length` bytes. A
recycled buffer is not cleared; `fill i` is the byte it holds at index `i`. -/
def Get (fill : Nat → Byte) (length : Nat) : Option (List Byte) :=
  if length = 0 then none else some ((List.range length).map fill)

end pool

/-- `type delimitedReader struct { r io.Reader; buf []byte }`; `r` is the state of the
underlying stream. -/
structure delimitedReader (σ : Type) where
  r : σ
  buf : Option (List Byte)

/-- `func newDelimitedReader(r io.Reader, maxSize int) *delimitedReader`:
`&delimitedReader{r: r, buf: pool.Get(maxSize)}`, for `maxSize >= 0`. -/
def newDelimitedReader {σ : Type} (fill : Nat → Byte) (r : σ) (maxSize : Nat) : delimitedReader σ :=
  { r := r, buf := pool.Get fill maxSize }

/-- The reader holds a buffer (`d.buf != nil`). `Close` takes the buffer away; a reader built
with `maxSize = 0` holds none from the start (`pool.Get(0)` is `nil`), although it has not been
closed. -/
def delimitedReader.isOpen {σ : Type} (d : delimitedReader σ) : Bool := d.buf.isSome

/-- `len(d.buf)` -/
def delimitedReader.bufLen {σ : Type} (d : delimitedReader σ) : Nat :=
  match d.buf with
  | none => 0
  | some b => b.length

/-- `func (d *delimitedReader) Close()` -/
def delimitedReader.Close {σ : Type} (d : delimitedReader σ) (p : Pool) : delimitedReader σ × Pool :=
  match d.buf with
  | some b => ({ d with buf := none }, pool.Put p b)
  | none => (d, p)

/-- `func (d *delimitedReader) ReadByte() (byte, error)`:
`buf := d.buf[:1]; _, err := d.r.Read(buf); return buf[0], err`.
The slice `d.buf[:1]` panics on the nil buffer. (On an empty non-nil buffer, which
`pool.Get` never returns, it is taken to panic as well.) When `Read` stores no byte, `buf[0]`
is the byte that was there before. -/
def delimitedReader.ReadByte {σ : Type} (R : Reader σ) (d : delimitedReader σ) :
    Exec ((Byte × Option Error) × delimitedReader σ) :=
  match d.buf with
  | none => .panic
  | some [] => .panic
  | some (b0 :: tail) =>
    let res := R.Read d.r 1
    let b := match res.1 with
      | [] => b0
      | b :: _ => b
    .ret ((b, res.2.1), { r := res.2.2, buf := some (b :: tail) })

/-- The loop of `varint.ReadUvarint(r io.ByteReader)` of go-varint, with `r` the delimited
reader: `x` is the value accumulated so far and `s` the shift, `s += 7` each round. -/
def ReadUvarintLoop {σ : Type} (R : Reader σ) :
    Nat → Nat → Nat → delimitedReader σ → Exec ((Nat × Option Error) × delimitedReader σ)
  | 0, _, _, _ => .timeout
  | fuel + 1, x, s, d =>
    match d.ReadByte R with
    | .panic => .panic
    | .timeout => .timeout
    | .ret ((b, err), d1) =>
      match err with
      | some e =>
        if e = Error.EOF ∧ s ≠ 0 then .ret ((0, some Error.ErrUnexpectedEOF), d1)
        else .ret ((0, some e), d1)
      | none =>
        if (s = 56 ∧ b.toNat ≥ 0x80) ∨ s ≥ 7 * 9 then .ret ((0, some Error.ErrOverflow), d1)
        else if b.toNat < 0x80 then
          if b.toNat = 0 ∧ s > 0 then .ret ((0, some Error.ErrNotMinimal), d1)
          else .ret (((x ||| (b.toNat <<< s)) % 2 ^ 64, none), d1)
        else ReadUvarintLoop R fuel ((x ||| ((b.toNat &&& 0x7f) <<< s)) % 2 ^ 64) (s + 7) d1

/-- `varint.ReadUvarint(d)`. The loop returns by its tenth byte (`s >= 63`), so ten rounds
are all it can use. -/
def ReadUvarint {σ : Type} (R : Reader σ) (d : delimitedReader σ) :
    Exec ((Nat × Option Error) × delimitedReader σ) :=
  ReadUvarintLoop R 10 0 0 d

/-- Storing `data` into `buf[n:]`, as `Read(buf[n:])` does with the bytes it delivers. -/
def copyInto (buf : List Byte) (n : Nat) (data : List Byte) : List Byte :=
  buf.take n ++ data ++ buf.drop (n + data.length)

/-- The loop of `io.ReadAtLeast`:
`for n < min && err == nil { nn, err = r.Read(buf[n:]); n += nn }`. -/
def ReadAtLeastLoop {σ : Type} (R : Reader σ) (min : Nat) :
    Nat → Nat → Option Error → List Byte → σ → Exec (Nat × Option Error × List Byte × σ)
  | 0, n, err, buf, r =>
    if n < min ∧ err = none then .timeout else .ret (n, err, buf, r)
  | fuel + 1, n, err, buf, r =>
    if n < min ∧ err = none then
      let res := R.Read r (buf.length - n)
      ReadAtLeastLoop R min fuel (n + res.1.length) res.2.1 (copyInto buf n res.1) res.2.2
    else .ret (n, err, buf, r)

/-- `io.ReadAtLeast(r, buf, min)`; the result is `(n, err)`, the buffer and the stream. -/
def ReadAtLeast {σ : Type} (R : Reader σ) (fuel : Nat) (r : σ) (buf : List Byte) (min : Nat) :
    Exec (Nat × Option Error × List Byte × σ) :=
  if buf.length < min then .ret (0, some Error.ErrShortBuffer, buf, r)
  else
    match ReadAtLeastLoop R min fuel 0 none buf r with
    | .panic => .panic
    | .timeout => .timeout
    | .ret (n, err, buf1, r1) =>
      if n ≥ min then .ret (n, none, buf1, r1)
      else if n > 0 ∧ err = some Error.EOF then .ret (n, some Error.ErrUnexpectedEOF, buf1, r1)
      else .ret (n, err, buf1, r1)

/-- `io.ReadFull(r, buf)` -/
def ReadFull {σ : Type} (R : Reader σ) (fuel : Nat) (r : σ) (buf : List Byte) :
    Exec (Nat × Option Error × List Byte × σ) :=
  ReadAtLeast R fuel r buf buf.length

/-- The slice expression `buf[:n]` on the reader's buffer: `none` when it is out of range (a
run-time panic). The bound is taken to be `len(buf)` (`pool.Get` hands out `len(buf)` bytes;
what capacity lies beyond them is not relied on); `nil[:0]` is in range. -/
def sliceTo (buf : Option (List Byte)) (n : Nat) : Option (List Byte) :=
  match buf with
  | none => if n = 0 then some [] else none
  | some b => if n ≤ b.length then some (b.take n) else none

/-- `func (d *delimitedReader) ReadMsg(msg proto.Message) error`. `Unmarshal` is
`proto.Unmarshal` as a function of the bytes it is given; the result is the decoded message
when the returned error is `nil`, and the error otherwise. `fuel` bounds the number of `Read`
calls `io.ReadFull` may make. After the size check comes `buf := d.buf[:mlen]`, which panics
when it is out of range; `io.ReadFull` stores into that slice, that is, into the first `mlen`
bytes of `d.buf`. -/
def delimitedReader.ReadMsg {σ M : Type} (R : Reader σ) (Unmarshal : List Byte → Except Error M)
    (fuel : Nat) (d : delimitedReader σ) : Exec (Except Error M × delimitedReader σ) :=
  match ReadUvarint R d with
  | .panic => .panic
  | .timeout => .timeout
  | .ret ((mlen, err), d1) =>
    match err with
    | some e => .ret (.error e, d1)
    | none =>
      if d1.bufLen < mlen then .ret (.error (Error.New "message too large"), d1)
      else
        match sliceTo d1.buf mlen with
        | none => .panic
        | some buf0 =>
          match ReadFull R fuel d1.r buf0 with
          | .panic => .panic
          | .timeout => .timeout
          | .ret (_, err, buf, r1) =>
            let d2 : delimitedReader σ :=
              { r := r1, buf := d1.buf.map (fun w => buf ++ w.drop mlen) }
            match err with
            | some e => .ret (.error e, d2)
            | none => .ret (Unmarshal buf, d2)

/-- The loop of `varint.PutUvarint`: `for x >= 0x80 { buf[i] = byte(x) | 0x80; x >>= 7; i++ }`
and then `buf[i] = byte(x)`; the result is `buf[:i+1]`. -/
def PutUvarintLoop : Nat → Nat → List Byte
  | 0, x => [UInt8.ofNat x]
  | fuel + 1, x =>
    if x ≥ 0x80 then UInt8.ofNat ((x % 256) ||| 0x80) :: PutUvarintLoop fuel (x >>> 7)
    else [UInt8.ofNat x]

/-- The bytes `uvarint(x)` of a `uint64` (at most ten). -/
def PutUvarint (x : Nat) : List Byte := PutUvarintLoop 9 x

/-- `WriteMsg` of the writer made by `newDelimitedWriter` (`protoio.NewDelimitedWriter`), on a
stream `w` that collects what is written: `data := proto.Marshal(msg)` goes out as
`uvarint(len(data))` followed by `data`. -/
def WriteMsg {M : Type} (Marshal : M → List Byte) (w : List Byte) (msg : M) : List Byte :=
  w ++ PutUvarint (Marshal msg).length ++ Marshal msg

/-- A byte stream with contents `data`: a `Read` delivers, in order, at least one byte and at
most `len(p)`; `chunks` lists the most each successive `Read` will deliver (a short read when
that is less than `len(p)`). -/
structure Stream where
  data : List Byte
  chunks : List Nat
  deriving DecidableEq, Repr

/-- `Read` of a `Stream`: `io.EOF` once the contents are exhausted. -/
def Stream.Read (s : Stream) (n : Nat) : List Byte × Option Error × Stream :=
  if n = 0 then ([], none, s)
  else if s.data = [] then ([], some Error.EOF, s)
  else
    let k := Nat.min n (Nat.max 1 (s.chunks.headD n))
    (s.data.take k, none, { data := s.data.drop k, chunks := s.chunks.tail })

/-- The `io.Reader` of byte streams. -/
def streamReader : Reader Stream where
  Read := Stream.Read
  Read_le := by
    intro s n
    unfold Stream.Read
    split
    · simp
    · split
      · simp
      · simp only [List.length_take]
        exact le_trans (Nat.min_le_left _ _) (Nat.min_le_left _ _)

/-- A stream given by what its successive `Read` calls return, whatever that is: the
`i`-th call returns the `i`-th entry `(data, err)`, with `data` cut to `len(p)`; once the
entries are used up every call returns `(0, io.EOF)`. -/
abbrev Script := List (List Byte × Option Error)

/-- `Read` of a `Script`. -/
def Script.Read (s : Script) (n : Nat) : List Byte × Option Error × Script :=
  match s with
  | [] => ([], some Error.EOF, [])
  | (data, err) :: rest => (data.take n, err, rest)

/-- The `io.Reader` of scripted streams. -/
def scriptReader : Reader Script where
  Read := Script.Read
  Read_le := by
    intro s n
    cases s with
    | nil => simp [Script.Read]
    | cons c rest =>
      obtain ⟨data, err⟩ := c
      simp only [Script.Read, List.length_take]
      exact Nat.min_le_left _ _

/-- The `Read` results by which a stream hands over the bytes `bs` one at a time, each with a
nil error. -/
def byteReads (bs : List Byte) : Script := bs.map (fun b => ([b], none))

/-- The `Read` results by which a stream hands over the chunks `cs` in order, each with a nil
error; an empty chunk is a `Read` that returns `(0, nil)`. -/
def chunkReads (cs : List (List Byte)) : Script := cs.map (fun c => (c, none))

/-- The bytes a scripted stream hands over, in order. -/
def Script.bytes (s : Script) : List Byte := (s.map (fun c => c.1)).flatten

/-- The `Read` results `reads` hand over exactly the bytes `payload`, to a caller that asks
each time for the bytes still missing: no `Read` at all when `payload` is empty; otherwise
every `Read` but the last returns a nil error (and any number of bytes, none included), the
last `Read` delivers at least one byte, with whatever error (nil or not) it returns along with
it, and the bytes delivered are, in order, exactly `payload`. -/
def handsOver (reads : Script) (payload : List Byte) : Prop :=
  match reads.getLast? with
  | none => payload = []
  | some (last, _) =>
    last ≠ [] ∧ (∀ c ∈ reads.dropLast, c.2 = none) ∧ Script.bytes reads = payload

instance handsOverDecidable (reads : Script) (payload : List Byte) :
    Decidable (handsOver reads payload) := by
  unfold handsOver
  cases reads.getLast? with
  | none => exact inferInstanceAs (Decidable (payload = []))
  | some c =>
    exact inferInstanceAs (Decidable
      (c.1 ≠ [] ∧ (∀ c ∈ reads.dropLast, c.2 = none) ∧ Script.bytes reads = payload))

/-- `Close` called `n` times in a row on one reader, with the pool threaded through. -/
def closeTimes {σ : Type} : Nat → delimitedReader σ × Pool → delimitedReader σ × Pool
  | 0, st => st
  | n + 1, st => closeTimes n (st.1.Close st.2)

/-- The reader `R` with the number of `Read` calls made so far kept next to its state. -/
def counted {σ : Type} (R : Reader σ) : Reader (σ × Nat) where
  Read := fun s n => ((R.Read s.1 n).1, (R.Read s.1 n).2.1, ((R.Read s.1 n).2.2, s.2 + 1))
  Read_le := fun s n => R.Read_le s.1 n

/-- `ReadMsg` called `k` times in a row on one reader (the decoded messages and returned
errors are dropped); a panic or an exhausted budget ends the run. -/
def ReadMsgTimes {σ M : Type} (R : Reader σ) (Unmarshal : List Byte → Except Error M)
    (fuel : Nat) : Nat → delimitedReader σ → Exec (delimitedReader σ)
  | 0, d => .ret d
  | k + 1, d =>
    match d.ReadMsg R Unmarshal fuel with
    | .panic => .panic
    | .timeout => .timeout
    | .ret (_, d1) => ReadMsgTimes R Unmarshal fuel k d1

/-- What a `ReadMsg` call shows to its caller: the returned message or error, the stream
afterwards and the size of the reader's buffer (not the bytes the buffer holds). -/
def observe {σ M : Type} :
    Exec (Except Error M × delimitedReader σ) → Exec (Except Error M × σ × Nat)
  | .ret (out, d) => .ret (out, d.r, d.bufLen)
  | .panic => .panic
  | .timeout => .timeout

/-! ## Upgrader factory -/

/-- The text `err.Error()` of an error value. -/
def Error.text : Error → String
  | .EOF => "EOF"
  | .ErrUnexpectedEOF => "unexpected EOF"
  | .ErrShortBuffer => "short buffer"
  | .ErrOverflow => "varints larger than uint63 not supported"
  | .ErrNotMinimal => "varint not minimally encoded"
  | .New msg => msg

/-- The imported types and functions `GenUpgrader` puts together. -/
structure UpgraderLib where
  Swarm : Type
  PeerID : Type
  PrivKey : Type
  SecureTransport : Type
  StreamMuxer : Type
  PSK : Type
  ResourceManager : Type
  ConnectionGater : Type
  /-- `tptu.Option` -/
  UpgraderOption : Type
  Upgrader : Type
  /-- `n.LocalPeer()` -/
  LocalPeer : Swarm → PeerID
  /-- `n.Peerstore().PrivKey(id)` -/
  PeerstorePrivKey : Swarm → PeerID → PrivKey
  /-- `insecure.NewWithIdentity(insecure.ID, id, pk)` -/
  NewWithIdentity : PeerID → PrivKey → SecureTransport
  /-- `tptu.StreamMuxer{ID: yamux.ID, Muxer: yamux.DefaultTransport}` -/
  yamuxMuxer : StreamMuxer
  /-- `tptu.New(security, muxers, psk, rcmgr, connGater, opts...)`; `none` is a nil argument. -/
  New : List SecureTransport → List StreamMuxer → Option PSK →
    Option ResourceManager → ConnectionGater → List UpgraderOption → Except Error Upgrader

/-- `func GenUpgrader(n *swarm.Swarm, connGater connmgr.ConnectionGater, opts ...tptu.Option)
(transport.Upgrader, error)`; `none` is the nil upgrader, resp. the nil error. -/
def GenUpgrader (L : UpgraderLib) (n : L.Swarm) (connGater : L.ConnectionGater)
    (opts : List L.UpgraderOption) : Option L.Upgrader × Option Error :=
  let id := L.LocalPeer n
  let pk := L.PeerstorePrivKey n id
  let st := L.NewWithIdentity id pk
  match L.New [st] [L.yamuxMuxer] none none connGater opts with
  | .error err => (none, some (Error.New ("error creating upgrader: " ++ err.text)))
  | .ok u => (some u, none)

/-! ## Theorems -/

/-! ### Relay usage tag -/

theorem wrapInt_of_isInt (v : Int) (h : isInt v) : wrapInt v = v := by
  unfold isInt minInt maxInt at h
  unfold wrapInt
  omega

theorem decrementTag_pos (v : Int) (h : isInt v) (hpos : 0 < v) : decrementTag v = v - 1 := by
  have h2 : isInt (v - 1) := by
    unfold isInt minInt maxInt at *
    omega
  simp [decrementTag, hpos, wrapInt_of_isInt _ h2]

theorem decrementTag_nonneg (v : Int) (h : isInt v) (h0 : 0 ≤ v) :
    0 ≤ decrementTag v ∧ isInt (decrementTag v) := by
  by_cases hpos : 0 < v
  · rw [decrementTag_pos v h hpos]
    unfold isInt minInt maxInt at *
    omega
  · have : v = 0 := by omega
    subst this
    simp [decrementTag, isInt, minInt, maxInt]

theorem incrementTag_below_max (v : Int) (h : isInt v) (hlt : v < maxInt) :
    incrementTag v = v + 1 := by
  have h2 : isInt (v + 1) := by
    unfold isInt minInt maxInt at *
    omega
  simp [incrementTag, wrapInt_of_isInt _ h2]

theorem runTagOps_nonneg (ops : List TagOp) :
    ∀ v : Int, isInt v → 0 ≤ v → incBelowMax ops v → 0 ≤ runTagOps ops v := by
  induction ops with
  | nil => intro v _ h0 _; simpa [runTagOps] using h0
  | cons op ops ih =>
    intro v hv h0 hsafe
    cases op with
    | inc =>
      obtain ⟨hlt, hrest⟩ := hsafe
      have e := incrementTag_below_max v hv hlt
      have hv1 : isInt (incrementTag v) := by
        rw [e]; unfold isInt minInt maxInt at *; omega
      have h1 : 0 ≤ incrementTag v := by rw [e]; omega
      exact ih _ hv1 h1 hrest
    | dec =>
      have hd := decrementTag_nonneg v hv h0
      exact ih _ hd.2 hd.1 hsafe

/-- C10 (as stated, refuted): from the non-negative tag `2^63 - 1` one `incrementTag` call
reaches `-2^63`, a negative value, and a following `decrementTag` leaves it negative. -/
theorem C10_floor_fails_at_maxInt :
    isInt maxInt ∧ 0 ≤ maxInt ∧ runTagOps [TagOp.inc] maxInt = minInt ∧
      runTagOps [TagOp.inc, TagOp.dec] maxInt < 0 := by
  decide

/-- C10 (amended): `decrementTag` saturates at zero: for every non-negative `int` value `v`,
`decrementTag v = v - 1` when `v > 0`, `decrementTag 0 = 0`, and the result is `>= 0`; and
every value reached from a non-negative tag by a finite sequence of `incrementTag` and
`decrementTag` calls in which no `incrementTag` is applied to `2^63 - 1` is non-negative. -/
theorem C10_decrementTag_floor (v : Int) (hv : isInt v) (h0 : 0 ≤ v) :
    (0 < v → decrementTag v = v - 1) ∧ decrementTag 0 = 0 ∧ 0 ≤ decrementTag v ∧
      ∀ ops : List TagOp, incBelowMax ops v → 0 ≤ runTagOps ops v :=
  ⟨fun hpos => decrementTag_pos v hv hpos, by simp [decrementTag],
    (decrementTag_nonneg v hv h0).1, fun ops hs => runTagOps_nonneg ops v hv h0 hs⟩

theorem C10_decrementTag_floor_witness :
    (0 < (2 : Int) → decrementTag 2 = 2 - 1) ∧ decrementTag 0 = 0 ∧ 0 ≤ decrementTag 2 ∧
      ∀ ops : List TagOp, incBelowMax ops 2 → 0 ≤ runTagOps ops 2 :=
  C10_decrementTag_floor 2 (by decide) (by decide)

/-! ### Peer descriptor codec -/

theorem parseAddrsLoop_eq {MA : Type} (L : PeerLib MA) (bs : List (List Byte)) :
    ∀ acc : List MA, parseAddrsLoop L bs acc = acc ++ bs.filterMap (parsedAddr L) := by
  induction bs with
  | nil => intro acc; simp [parseAddrsLoop]
  | cons b bs ih =>
    intro acc
    unfold parseAddrsLoop
    cases h : L.NewMultiaddrBytes b with
    | ok a => simp [ih, parsedAddr, h, List.filterMap_cons]
    | error e => simp [ih, parsedAddr, h, List.filterMap_cons]

theorem fillAddrsLoop_eq {MA : Type} (L : PeerLib MA) (as : List MA) :
    ∀ (bss : List (List Byte)) (i : Nat) (acc : List (List Byte)),
      as.map L.Bytes = bss.map some → acc.length = i + as.length →
      fillAddrsLoop L i as acc = .ret (acc.take i ++ bss) := by
  induction as with
  | nil =>
    intro bss i acc hb h
    cases bss with
    | cons b bss => simp at hb
    | nil =>
      simp only [fillAddrsLoop, List.append_nil]
      rw [List.take_of_length_le]
      simp at h
      omega
  | cons a as ih =>
    intro bss i acc hb h
    cases bss with
    | nil => simp at hb
    | cons b bss =>
      simp only [List.map_cons, List.cons.injEq] at hb
      obtain ⟨ha, hrest⟩ := hb
      simp only [List.length_cons] at h
      unfold fillAddrsLoop
      rw [ha]
      simp only
      rw [ih bss (i + 1) _ hrest (by simp; omega)]
      have hi : i < acc.length := by omega
      rw [List.take_succ, List.set_take]
      have hset : (acc.take i).set i b = acc.take i :=
        List.set_eq_of_length_le (by simp)
      simp [hset, hi, List.getElem?_set]

theorem fillAddrsLoop_nil_addr {MA : Type} (L : PeerLib MA) (as : List MA)
    (h : ∃ a ∈ as, L.Bytes a = none) :
    ∀ (i : Nat) (acc : List (List Byte)), fillAddrsLoop L i as acc = .panic := by
  induction as with
  | nil =>
    obtain ⟨a, ha, _⟩ := h
    cases ha
  | cons a as ih =>
    intro i acc
    unfold fillAddrsLoop
    cases hb : L.Bytes a with
    | none => rfl
    | some bs =>
      simp only
      apply ih
      obtain ⟨c, hc, hnone⟩ := h
      rcases List.mem_cons.mp hc with h1 | h1
      · subst h1
        rw [hb] at hnone
        cases hnone
      · exact ⟨c, h1, hnone⟩

theorem peerInfoToPeer_eq {MA : Type} (L : PeerLib MA) (pi : AddrInfo MA)
    (bss : List (List Byte)) (hb : pi.Addrs.map L.Bytes = bss.map some) :
    peerInfoToPeer L pi = .ret (some { Id := pi.ID, Addrs := bss }) := by
  unfold peerInfoToPeer
  rw [fillAddrsLoop_eq L pi.Addrs bss 0 (List.replicate pi.Addrs.length []) hb (by simp)]
  simp

theorem map_Bytes_of_all_some {MA : Type} (L : PeerLib MA) (as : List MA)
    (h : ∀ a ∈ as, ∃ bs, L.Bytes a = some bs) :
    ∃ bss : List (List Byte), as.map L.Bytes = bss.map some := by
  induction as with
  | nil => exact ⟨[], rfl⟩
  | cons a as ih =>
    obtain ⟨bs, hbs⟩ := h a (by simp)
    obtain ⟨bss, hbss⟩ := ih (fun c hc => h c (by simp [hc]))
    exact ⟨bs :: bss, by simp [hbs, hbss]⟩

theorem peerToPeerInfo_ok {MA : Type} (L : PeerLib MA) (p : CircuitRelay_Peer) (id : ID)
    (hid : L.IDFromBytes p.Id = .ok id) :
    peerToPeerInfo L (some p) =
      ({ ID := id, Addrs := p.Addrs.filterMap (parsedAddr L) }, none) := by
  simp [peerToPeerInfo, hid, parseAddrsLoop_eq]

theorem filterMap_parsedAddr_nil {MA : Type} (L : PeerLib MA) (bs : List (List Byte))
    (h : ∀ b ∈ bs, wellFormed L b = false) : bs.filterMap (parsedAddr L) = [] := by
  induction bs with
  | nil => rfl
  | cons b bs ih =>
    have hb := h b (by simp)
    have hrest := ih (fun c hc => h c (by simp [hc]))
    unfold wellFormed at hb
    cases hp : L.NewMultiaddrBytes b with
    | ok a => simp [hp] at hb
    | error e => simp [List.filterMap_cons, parsedAddr, hp, hrest]

theorem map_Bytes_filterMap {MA : Type} (L : PeerLib MA)
    (hbytes : ∀ b a, L.NewMultiaddrBytes b = .ok a → L.Bytes a = some b) (bs : List (List Byte)) :
    (bs.filterMap (parsedAddr L)).map L.Bytes = (bs.filter (wellFormed L)).map some := by
  induction bs with
  | nil => rfl
  | cons b bs ih =>
    cases hp : L.NewMultiaddrBytes b with
    | ok a =>
      simp [List.filterMap_cons, List.filter_cons, parsedAddr, wellFormed, hp, ih,
        hbytes b a hp]
    | error e =>
      simp [List.filterMap_cons, List.filter_cons, parsedAddr, wellFormed, hp, ih]

/-- C4: for a non-nil descriptor whose identity bytes parse, `peerToPeerInfo` succeeds and
its address list is the filter-map of `p.Addrs` under `ma.NewMultiaddrBytes` (the parsed
values of the entries that parse, in their original order); a descriptor whose entries are all
malformed yields the same empty list as one with no entries. -/
theorem C4_peerToPeerInfo_addrs {MA : Type} (L : PeerLib MA) (p : CircuitRelay_Peer) (id : ID)
    (hid : L.IDFromBytes p.Id = .ok id) :
    (peerToPeerInfo L (some p)).2 = none ∧
      (peerToPeerInfo L (some p)).1.Addrs = p.Addrs.filterMap (parsedAddr L) ∧
      ((∀ b ∈ p.Addrs, wellFormed L b = false) →
        (peerToPeerInfo L (some p)).1.Addrs = [] ∧
        (peerToPeerInfo L (some p)).1 = (peerToPeerInfo L (some { p with Addrs := [] })).1) := by
  rw [peerToPeerInfo_ok L p id hid]
  refine ⟨rfl, rfl, fun h => ?_⟩
  have hid2 : L.IDFromBytes ({ p with Addrs := [] } : CircuitRelay_Peer).Id = .ok id := hid
  rw [peerToPeerInfo_ok L _ id hid2]
  simp [filterMap_parsedAddr_nil L p.Addrs h]

theorem C4_peerToPeerInfo_addrs_witness :
    (peerToPeerInfo toyLib (some { Id := [1], Addrs := [[4, 1], [9, 9], [4, 2]] })).2 = none ∧
      (peerToPeerInfo toyLib (some { Id := [1], Addrs := [[4, 1], [9, 9], [4, 2]] })).1.Addrs
        = [[4, 1], [4, 2]] := by
  have h := C4_peerToPeerInfo_addrs toyLib { Id := [1], Addrs := [[4, 1], [9, 9], [4, 2]] } [1]
    rfl
  exact ⟨h.1, by rw [h.2.1]; decide⟩

/-- C5: `peerToPeerInfo` returns an error exactly when `p` is nil or `peer.IDFromBytes(p.Id)`
fails; `peerToPeerInfo(nil)` fails; for a fixed identity that parses it succeeds for every
address list; on failure the returned `AddrInfo` is the empty value. -/
theorem C5_peerToPeerInfo_errors {MA : Type} (L : PeerLib MA) (p : Option CircuitRelay_Peer) :
    ((peerToPeerInfo L p).2 ≠ none ↔
        (p = none ∨ ∃ q e, p = some q ∧ L.IDFromBytes q.Id = .error e)) ∧
      (peerToPeerInfo L none).2 = some (Error.New "nil peer") ∧
      (∀ (idBytes : List Byte) (id : ID), L.IDFromBytes idBytes = .ok id →
        ∀ addrs : List (List Byte),
          (peerToPeerInfo L (some { Id := idBytes, Addrs := addrs })).2 = none) ∧
      ((peerToPeerInfo L p).2 ≠ none → (peerToPeerInfo L p).1 = AddrInfo.zero) := by
  refine ⟨?_, rfl, ?_, ?_⟩
  · cases p with
    | none => simp [peerToPeerInfo]
    | some q =>
      cases h : L.IDFromBytes q.Id with
      | ok id => simp [peerToPeerInfo, h]
      | error e => simp [peerToPeerInfo, h]
  · intro idBytes id hid addrs
    simp [peerToPeerInfo, hid]
  · cases p with
    | none => simp [peerToPeerInfo]
    | some q =>
      cases h : L.IDFromBytes q.Id with
      | ok id => simp [peerToPeerInfo, h]
      | error e => simp [peerToPeerInfo, h]

/-- C6: for a non-nil descriptor `p` with a well-formed identity, `peerInfoToPeer` after
`peerToPeerInfo` has `Id` equal to `p.Id` and `Addrs` equal to the well-formed entries of
`p.Addrs`, unchanged and in order; it is `p` itself when every entry is well-formed and has a
strictly shorter address list when some entry is malformed. The two facts used of the
imported packages: `peer.IDFromBytes(b)` is the ID with raw bytes `b`, and the bytes of
`ma.NewMultiaddrBytes(b)` are `b`. -/
theorem C6_decode_encode {MA : Type} (L : PeerLib MA) (p : CircuitRelay_Peer) (id : ID)
    (hraw : ∀ b i, L.IDFromBytes b = .ok i → i = b)
    (hbytes : ∀ b a, L.NewMultiaddrBytes b = .ok a → L.Bytes a = some b)
    (hid : L.IDFromBytes p.Id = .ok id) :
    ∃ q : CircuitRelay_Peer,
      peerInfoToPeer L (peerToPeerInfo L (some p)).1 = .ret (some q) ∧
      q.Id = p.Id ∧ q.Addrs = p.Addrs.filter (wellFormed L) ∧
      ((∀ b ∈ p.Addrs, wellFormed L b = true) → q = p) ∧
      ((∃ b ∈ p.Addrs, wellFormed L b = false) → q.Addrs.length < p.Addrs.length) := by
  have hmain : peerInfoToPeer L (peerToPeerInfo L (some p)).1 =
      .ret (some { Id := p.Id, Addrs := p.Addrs.filter (wellFormed L) }) := by
    rw [peerToPeerInfo_ok L p id hid,
      peerInfoToPeer_eq L _ (p.Addrs.filter (wellFormed L)) (map_Bytes_filterMap L hbytes p.Addrs)]
    simp [hraw _ _ hid]
  refine ⟨_, hmain, rfl, rfl, fun hall => ?_, fun hex => ?_⟩
  · simp only [List.filter_eq_self.mpr hall]
  · obtain ⟨b, hb, hbad⟩ := hex
    apply lt_of_le_of_ne (List.length_filter_le _ _)
    intro heq
    have hself : p.Addrs.filter (wellFormed L) = p.Addrs :=
      (List.filter_sublist p.Addrs).eq_of_length heq
    have := List.filter_eq_self.mp hself b hb
    simp [hbad] at this

theorem C6_decode_encode_witness :
    ∃ q : CircuitRelay_Peer,
      peerInfoToPeer toyLib
          (peerToPeerInfo toyLib (some { Id := [1], Addrs := [[4, 1], [9, 9], [4, 2]] })).1 =
        .ret (some q) ∧ q.Id = [1] ∧ q.Addrs = [[4, 1], [4, 2]] ∧ q.Addrs.length < 3 := by
  obtain ⟨q, h1, h2, h3, _, h5⟩ :=
    C6_decode_encode toyLib { Id := [1], Addrs := [[4, 1], [9, 9], [4, 2]] } [1]
      (by
        intro b i hb
        simp only [toyLib] at hb
        split at hb
        · cases hb
        · cases hb; rfl)
      (by
        intro b a hb
        simp only [toyLib] at hb
        split at hb
        · cases hb; rfl
        · cases hb)
      rfl
  exact ⟨q, h1, h2, by rw [h3]; decide, h5 ⟨[9, 9], by decide, by decide⟩⟩

/-- C9 (as stated, refuted): an `AddrInfo` whose second address is the nil `ma.Multiaddr`
value: `peerInfoToPeer` does not return a descriptor, it panics at `addr.Bytes()`. -/
theorem C9_nil_address_panics :
    peerInfoToPeer toyLibNil { ID := [1], Addrs := [some [4, 1], none] } = .panic ∧
      ¬ ∃ q, peerInfoToPeer toyLibNil { ID := [1], Addrs := [some [4, 1], none] } = .ret (some q) :=
  ⟨rfl, fun ⟨_, h⟩ => by cases h⟩

/-- C9 (amended): for every `AddrInfo` `pi` on each of whose addresses `addr.Bytes()` returns
(as it does on every non-nil multiaddr), `peerInfoToPeer` returns a non-nil descriptor; its
`Id` is the raw bytes of `pi.ID`, and its `Addrs` has the length of `pi.Addrs` with the byte
serialization of `pi.Addrs[i]` at index `i`. When `addr.Bytes()` panics on one of the addresses
(a nil entry), `peerInfoToPeer` panics. -/
theorem C9_peerInfoToPeer_non_nil {MA : Type} (L : PeerLib MA) (pi : AddrInfo MA) :
    ((∀ a ∈ pi.Addrs, ∃ bs, L.Bytes a = some bs) →
      ∃ q : CircuitRelay_Peer, peerInfoToPeer L pi = .ret (some q) ∧ q.Id = pi.ID ∧
        q.Addrs.length = pi.Addrs.length ∧
        (∀ (i : Nat) (h : i < pi.Addrs.length),
          ∃ bs, q.Addrs[i]? = some bs ∧ L.Bytes (pi.Addrs.get ⟨i, h⟩) = some bs) ∧
        q.Addrs.map some = pi.Addrs.map L.Bytes) ∧
    ((∃ a ∈ pi.Addrs, L.Bytes a = none) → peerInfoToPeer L pi = .panic) := by
  refine ⟨fun hall => ?_, fun hnil => ?_⟩
  · obtain ⟨bss, hbss⟩ := map_Bytes_of_all_some L pi.Addrs hall
    have hlen : bss.length = pi.Addrs.length := by
      have := congrArg List.length hbss
      simpa using this.symm
    refine ⟨_, peerInfoToPeer_eq L pi bss hbss, rfl, hlen, ?_, hbss.symm⟩
    intro i h
    have hi : i < bss.length := by omega
    refine ⟨bss.get ⟨i, hi⟩, by simp [List.getElem?_eq_getElem hi], ?_⟩
    have h1 : (pi.Addrs.map L.Bytes)[i]? = (bss.map some)[i]? := by rw [hbss]
    simpa [List.getElem?_map, List.getElem?_eq_getElem h, List.getElem?_eq_getElem hi] using h1
  · unfold peerInfoToPeer
    rw [fillAddrsLoop_nil_addr L pi.Addrs hnil]

theorem C9_peerInfoToPeer_non_nil_witness :
    (∃ q : CircuitRelay_Peer,
      peerInfoToPeer toyLibNil { ID := [1], Addrs := [some [4, 1], some [4, 2]] } = .ret (some q) ∧
        q.Id = [1] ∧ q.Addrs.length = 2 ∧ q.Addrs.map some = [some [4, 1], some [4, 2]]) ∧
      peerInfoToPeer toyLibNil { ID := [1], Addrs := [some [4, 1], none] } = .panic := by
  obtain ⟨q, h1, h2, h3, _, h5⟩ :=
    (C9_peerInfoToPeer_non_nil toyLibNil { ID := [1], Addrs := [some [4, 1], some [4, 2]] }).1
      (by
        intro a ha
        simp only [List.mem_cons, List.mem_singleton, List.not_mem_nil, or_false] at ha
        rcases ha with h | h <;> subst h <;> exact ⟨_, rfl⟩)
  exact ⟨⟨q, h1, h2, h3, h5⟩,
    (C9_peerInfoToPeer_non_nil toyLibNil { ID := [1], Addrs := [some [4, 1], none] }).2
      ⟨none, by simp, rfl⟩⟩

/-! ### Close -/

theorem Close_closed {σ : Type} (d : delimitedReader σ) (p : Pool) (h : d.buf = none) :
    d.Close p = (d, p) := by
  unfold delimitedReader.Close
  rw [h]

theorem Close_buf {σ : Type} (d : delimitedReader σ) (p : Pool) : (d.Close p).1.buf = none := by
  unfold delimitedReader.Close
  cases h : d.buf with
  | none => simpa using h
  | some b => rfl

theorem closeTimes_closed {σ : Type} (n : Nat) (d : delimitedReader σ) (p : Pool)
    (h : d.buf = none) : closeTimes n (d, p) = (d, p) := by
  induction n with
  | zero => rfl
  | succ n ih =>
    unfold closeTimes
    rw [Close_closed d p h]
    exact ih

/-- C7: `Close` is idempotent: for every reader state and pool, `Close` after `Close` leaves
what one `Close` leaves, with `buf = nil`; and after any number `n + 1` of `Close` calls the
pool has received exactly the buffer the reader held, once (nothing when it held none). -/
theorem C7_Close_idempotent {σ : Type} (d : delimitedReader σ) (p : Pool) :
    (d.Close p).1.Close (d.Close p).2 = d.Close p ∧ (d.Close p).1.buf = none ∧
      (d.Close p).1.r = d.r ∧
      ∀ n : Nat, closeTimes (n + 1) (d, p) = d.Close p ∧
        (closeTimes (n + 1) (d, p)).2.released = p.released ++ d.buf.toList := by
  have hrel : (d.Close p).2.released = p.released ++ d.buf.toList := by
    unfold delimitedReader.Close
    cases d.buf with
    | none => simp
    | some b => simp [pool.Put]
  have hr : (d.Close p).1.r = d.r := by
    unfold delimitedReader.Close
    cases d.buf with
    | none => rfl
    | some b => rfl
  refine ⟨Close_closed _ _ (Close_buf d p), Close_buf d p, hr, fun n => ?_⟩
  have hn : closeTimes (n + 1) (d, p) = d.Close p := by
    show closeTimes n (d.Close p) = d.Close p
    exact closeTimes_closed n _ _ (Close_buf d p)
  exact ⟨hn, by rw [hn, hrel]⟩

/-! ### The varint reader and the slices of the buffer -/

theorem ReadUvarintLoop_ne_timeout {σ : Type} (R : Reader σ) (fuel : Nat) :
    ∀ (x s : Nat) (d : delimitedReader σ), 0 < fuel → 70 ≤ s + 7 * fuel →
      ReadUvarintLoop R fuel x s d ≠ .timeout := by
  induction fuel with
  | zero => intro x s d h; omega
  | succ fuel ih =>
    intro x s d _ hfuel
    unfold ReadUvarintLoop
    cases hb : d.ReadByte R with
    | panic => simp
    | timeout =>
      unfold delimitedReader.ReadByte at hb
      split at hb <;> cases hb
    | ret v =>
      obtain ⟨⟨b, err⟩, d1⟩ := v
      cases err with
      | some e =>
        simp only
        split <;> simp
      | none =>
        simp only
        split
        · simp
        · rename_i hno
          split
          · split <;> simp
          · exact ih _ _ _ (by omega) (by omega)

theorem ReadUvarint_ne_timeout {σ : Type} (R : Reader σ) (d : delimitedReader σ) :
    ReadUvarint R d ≠ .timeout :=
  ReadUvarintLoop_ne_timeout R 10 0 0 d (by norm_num) (by norm_num)

set_option maxRecDepth 100000 in
theorem byte_facts : ∀ m : Fin 256,
    ((m.val ||| 128) &&& 127 = m.val % 128) ∧ 128 ≤ (m.val ||| 128) ∧ (m.val ||| 128) < 256 := by
  decide

theorem or_shift_eq_add (x b s : Nat) (hx : x < 2 ^ s) : x ||| (b <<< s) = x + b * 2 ^ s := by
  rw [Nat.shiftLeft_eq, Nat.or_comm, Nat.mul_comm b, ← Nat.mul_add_lt_is_or hx, Nat.add_comm]

theorem Stream_ReadByte (rest : List Byte) (b b0 : Byte) (chunks : List Nat) (tail : List Byte) :
    delimitedReader.ReadByte streamReader { r := { data := b :: rest, chunks := chunks }, buf := some (b0 :: tail) } =
      .ret ((b, none), { r := { data := rest, chunks := chunks.tail }, buf := some (b :: tail) }) := by
  have hk : Nat.min 1 (Nat.max 1 (chunks.headD 1)) = 1 := by
    apply Nat.min_eq_left
    exact Nat.le_max_left _ _
  simp [delimitedReader.ReadByte, streamReader, Stream.Read, hk]

theorem sliceTo_some (whole : List Byte) (n : Nat) (h : n ≤ whole.length) :
    sliceTo (some whole) n = some (whole.take n) := by
  simp [sliceTo, h]

theorem sliceTo_of_fits {σ : Type} (d : delimitedReader σ) (n : Nat) (h : ¬ d.bufLen < n) :
    sliceTo d.buf n = some ((d.buf.getD []).take n) := by
  unfold delimitedReader.bufLen at h
  unfold sliceTo
  cases hb : d.buf with
  | none =>
    rw [hb] at h
    have h0 : n = 0 := by simpa using h
    simp [h0]
  | some whole =>
    rw [hb] at h
    have hle : n ≤ whole.length := by simpa using h
    simp [hle]

theorem Stream_ReadByte_eof (chunks : List Nat) (b0 : Byte) (tail : List Byte) :
    delimitedReader.ReadByte streamReader
        { r := { data := [], chunks := chunks }, buf := some (b0 :: tail) } =
      .ret ((b0, some Error.EOF),
        { r := { data := [], chunks := chunks }, buf := some (b0 :: tail) }) := by
  simp [delimitedReader.ReadByte, streamReader, Stream.Read]

theorem Script_ReadByte (data : List Byte) (cerr : Option Error) (rest : Script) (b0 : Byte)
    (tail : List Byte) :
    ∃ b : Byte, delimitedReader.ReadByte scriptReader
        { r := (data, cerr) :: rest, buf := some (b0 :: tail) } =
      .ret ((b, cerr), { r := rest, buf := some (b :: tail) }) :=
  ⟨_, rfl⟩

theorem ReadAtLeastLoop_err {σ : Type} (R : Reader σ) (min fuel n : Nat) (e : Error)
    (buf : List Byte) (r : σ) :
    ReadAtLeastLoop R min fuel n (some e) buf r = .ret (n, some e, buf, r) := by
  cases fuel with
  | zero => simp [ReadAtLeastLoop]
  | succ fuel => simp [ReadAtLeastLoop]

theorem ReadAtLeastLoop_done {σ : Type} (R : Reader σ) (min fuel n : Nat) (err : Option Error)
    (buf : List Byte) (r : σ) (h : ¬ n < min) :
    ReadAtLeastLoop R min fuel n err buf r = .ret (n, err, buf, r) := by
  cases fuel with
  | zero => simp [ReadAtLeastLoop, h]
  | succ fuel => simp [ReadAtLeastLoop, h]

theorem ReadByte_counted {σ : Type} (R : Reader σ) (d d1 : delimitedReader σ) (c : Nat)
    (x : Byte × Option Error) (h : d.ReadByte R = .ret (x, d1)) :
    delimitedReader.ReadByte (counted R) { r := (d.r, c), buf := d.buf } =
      .ret (x, { r := (d1.r, c + 1), buf := d1.buf }) := by
  unfold delimitedReader.ReadByte at h ⊢
  cases hbuf : d.buf with
  | none => rw [hbuf] at h; cases h
  | some l =>
    cases l with
    | nil => rw [hbuf] at h; cases h
    | cons b0 tail =>
      rw [hbuf] at h
      simp only at h ⊢
      cases h
      rfl

theorem PutUvarint_length_le_two (N : Nat) (hN : N < 16384) : (PutUvarint N).length ≤ 2 := by
  unfold PutUvarint PutUvarintLoop
  split
  · unfold PutUvarintLoop
    have h7 : ¬ (N >>> 7 ≥ 0x80) := by
      rw [Nat.shiftRight_eq_div_pow]
      have : N / 2 ^ 7 < 128 := Nat.div_lt_of_lt_mul (by norm_num; omega)
      omega
    rw [if_neg h7]
    simp
  · simp

theorem newDelimitedReader_buf {σ : Type} (fill : Nat → Byte) (r : σ) (maxSize : Nat)
    (h : 1 ≤ maxSize) :
    newDelimitedReader fill r maxSize = { r := r, buf := some ((List.range maxSize).map fill) } := by
  unfold newDelimitedReader pool.Get
  rw [if_neg (by omega)]

theorem newDelimitedReader_zero {σ : Type} (fill : Nat → Byte) (r : σ) :
    newDelimitedReader fill r 0 = { r := r, buf := none } := rfl

theorem ReadMsg_closed {σ M : Type} (R : Reader σ) (Unmarshal : List Byte → Except Error M)
    (fuel : Nat) (r : σ) :
    delimitedReader.ReadMsg R Unmarshal fuel { r := r, buf := none } = .panic := rfl

/-! ### incrementTag -/

/-- C11 (as stated, refuted): at the non-negative `int` value `2^63 - 1`, `incrementTag`
returns `-2^63`: not `v + 1`, not greater than `v`, and negative. -/
theorem C11_incrementTag_wraps_at_maxInt :
    isInt maxInt ∧ 0 ≤ maxInt ∧ incrementTag maxInt = minInt ∧
      incrementTag maxInt ≠ maxInt + 1 ∧ ¬ (maxInt < incrementTag maxInt) ∧
      incrementTag maxInt < 0 := by
  decide

/-- C11 (amended): for every non-negative tag value `v` of Go type `int` below the largest
`int`, `incrementTag v = v + 1`, which is strictly greater than `v`, non-negative and again an
`int`; no other ceiling applies. -/
theorem C11_incrementTag_succ (v : Int) (hv : isInt v) (h0 : 0 ≤ v) (hlt : v < maxInt) :
    incrementTag v = v + 1 ∧ v < incrementTag v ∧ 0 ≤ incrementTag v ∧
      isInt (incrementTag v) := by
  rw [incrementTag_below_max v hv hlt]
  unfold isInt minInt maxInt at *
  omega

theorem C11_incrementTag_succ_witness :
    incrementTag 41 = 41 + 1 ∧ (41 : Int) < incrementTag 41 ∧ 0 ≤ incrementTag 41 ∧
      isInt (incrementTag 41) :=
  C11_incrementTag_succ 41 (by decide) (by decide) (by decide)

/-! ### Encode then decode -/

theorem filterMap_parsedAddr_map_Bytes {MA : Type} (L : PeerLib MA) (as : List MA)
    (hparse : ∀ a ∈ as, ∃ b, L.Bytes a = some b ∧ L.NewMultiaddrBytes b = .ok a) :
    ∃ bss : List (List Byte), as.map L.Bytes = bss.map some ∧
      bss.filterMap (parsedAddr L) = as := by
  induction as with
  | nil => exact ⟨[], rfl, rfl⟩
  | cons a as ih =>
    obtain ⟨b, hb, ha⟩ := hparse a (by simp)
    obtain ⟨bss, h1, h2⟩ := ih (fun c hc => hparse c (by simp [hc]))
    exact ⟨b :: bss, by simp [hb, h1], by simp [List.filterMap_cons, parsedAddr, ha, h2]⟩

/-- C17 (as stated, refuted): an `AddrInfo` with a valid identity and two addresses, the
second one a multiaddr value whose serialization `ma.NewMultiaddrBytes` rejects (as it does
the zero bytes of the empty multiaddr): encoding and then decoding succeeds but returns one
address only. -/
theorem C17_unparseable_address_dropped :
    toyLib.IDFromBytes [1] = .ok [1] ∧
      peerInfoToPeer toyLib { ID := [1], Addrs := [[4, 1], []] } =
        .ret (some { Id := [1], Addrs := [[4, 1], []] }) ∧
      peerToPeerInfo toyLib (some { Id := [1], Addrs := [[4, 1], []] }) =
        ({ ID := [1], Addrs := [[4, 1]] }, none) ∧
      (peerToPeerInfo toyLib (some { Id := [1], Addrs := [[4, 1], []] })).1.Addrs.length ≠ 2 := by
  refine ⟨rfl, rfl, rfl, by decide⟩

/-- C17 (amended): for every `AddrInfo` `pi` whose ID is a valid peer identity and each of
whose addresses serializes to bytes that `ma.NewMultiaddrBytes` parses back to that address,
`peerInfoToPeer(pi)` returns a descriptor `q` and `peerToPeerInfo(q)` succeeds and returns
`pi`: the same ID and the same addresses in the same order and number. (Used of
`peer.IDFromBytes`: the ID it returns for `b` has raw bytes `b`.) -/
theorem C17_encode_decode {MA : Type} (L : PeerLib MA) (pi : AddrInfo MA) (id : ID)
    (hraw : ∀ b i, L.IDFromBytes b = .ok i → i = b)
    (hid : L.IDFromBytes pi.ID = .ok id)
    (hparse : ∀ a ∈ pi.Addrs, ∃ b, L.Bytes a = some b ∧ L.NewMultiaddrBytes b = .ok a) :
    ∃ q : CircuitRelay_Peer, peerInfoToPeer L pi = .ret (some q) ∧
      peerToPeerInfo L (some q) = (pi, none) ∧
      (peerToPeerInfo L (some q)).1.Addrs.length = pi.Addrs.length := by
  obtain ⟨bss, h1, h2⟩ := filterMap_parsedAddr_map_Bytes L pi.Addrs hparse
  have h : peerToPeerInfo L (some { Id := pi.ID, Addrs := bss }) = (pi, none) := by
    rw [peerToPeerInfo_ok L { Id := pi.ID, Addrs := bss } id hid]
    simp only [h2, hraw _ _ hid]
  exact ⟨_, peerInfoToPeer_eq L pi bss h1, h, by rw [h]⟩

theorem C17_encode_decode_witness :
    ∃ q : CircuitRelay_Peer,
      peerInfoToPeer toyLib { ID := [1], Addrs := [[4, 1], [4, 2]] } = .ret (some q) ∧
      peerToPeerInfo toyLib (some q) = ({ ID := [1], Addrs := [[4, 1], [4, 2]] }, none) ∧
      (peerToPeerInfo toyLib (some q)).1.Addrs.length =
        ([[4, 1], [4, 2]] : List (List Byte)).length :=
  C17_encode_decode toyLib { ID := [1], Addrs := [[4, 1], [4, 2]] } [1]
    (by
      intro b i hb
      simp only [toyLib] at hb
      split at hb
      · cases hb
      · cases hb; rfl)
    rfl
    (by
      intro a ha
      simp only [List.mem_cons, List.mem_singleton, List.not_mem_nil, or_false] at ha
      rcases ha with h | h <;> subst h <;> exact ⟨_, rfl, rfl⟩)

/-! ### GenUpgrader -/

/-- C14: `GenUpgrader` calls `tptu.New` with exactly one security transport (the insecure
transport of the swarm's identity) and exactly one stream multiplexer (yamux), nil PSK and
resource manager, the given gater and options; it fails exactly when that call fails; on
failure with `e` it returns no upgrader and the error with text
"error creating upgrader: " followed by `e`'s text; on success it returns the constructed
upgrader and a nil error. -/
theorem C14_GenUpgrader (L : UpgraderLib) (n : L.Swarm) (connGater : L.ConnectionGater)
    (opts : List L.UpgraderOption) :
    ((GenUpgrader L n connGater opts).2 ≠ none ↔
      ∃ e, L.New [L.NewWithIdentity (L.LocalPeer n) (L.PeerstorePrivKey n (L.LocalPeer n))]
        [L.yamuxMuxer] none none connGater opts = .error e) ∧
    (∀ e, L.New [L.NewWithIdentity (L.LocalPeer n) (L.PeerstorePrivKey n (L.LocalPeer n))]
        [L.yamuxMuxer] none none connGater opts = .error e →
      GenUpgrader L n connGater opts =
        (none, some (Error.New ("error creating upgrader: " ++ e.text)))) ∧
    (∀ u, L.New [L.NewWithIdentity (L.LocalPeer n) (L.PeerstorePrivKey n (L.LocalPeer n))]
        [L.yamuxMuxer] none none connGater opts = .ok u →
      GenUpgrader L n connGater opts = (some u, none)) := by
  have herr : ∀ e,
      L.New [L.NewWithIdentity (L.LocalPeer n) (L.PeerstorePrivKey n (L.LocalPeer n))]
        [L.yamuxMuxer] none none connGater opts = .error e →
      GenUpgrader L n connGater opts =
        (none, some (Error.New ("error creating upgrader: " ++ e.text))) := by
    intro e he
    simp only [GenUpgrader, he]
  have hok : ∀ u,
      L.New [L.NewWithIdentity (L.LocalPeer n) (L.PeerstorePrivKey n (L.LocalPeer n))]
        [L.yamuxMuxer] none none connGater opts = .ok u →
      GenUpgrader L n connGater opts = (some u, none) := by
    intro u hu
    simp only [GenUpgrader, hu]
  refine ⟨?_, herr, hok⟩
  cases h : L.New [L.NewWithIdentity (L.LocalPeer n) (L.PeerstorePrivKey n (L.LocalPeer n))]
      [L.yamuxMuxer] none none connGater opts with
  | error e =>
    rw [herr e h]
    simp
  | ok u =>
    rw [hok u h]
    simp

/-! ### The closed reader -/

/-- C13: after `Close` the reader holds no buffer (`buf = nil`); a further `Close` leaves it
as it is; `ReadByte` and `ReadMsg` on it panic at `d.buf[:1]`, whatever the stream is and
would deliver, so they return neither a byte nor a message nor a reader with a buffer. -/
theorem C13_closed_is_terminal {σ M : Type} (d : delimitedReader σ) (p : Pool) :
    (d.Close p).1.buf = none ∧ (d.Close p).1.isOpen = false ∧
      (∀ q : Pool, (d.Close p).1.Close q = ((d.Close p).1, q)) ∧
      (∀ R : Reader σ, (d.Close p).1.ReadByte R = .panic) ∧
      (∀ (R : Reader σ) (Unmarshal : List Byte → Except Error M) (fuel : Nat),
        (d.Close p).1.ReadMsg R Unmarshal fuel = .panic) := by
  have hb := Close_buf d p
  refine ⟨hb, ?_, fun q => Close_closed _ q hb, fun R => ?_, fun R U fuel => ?_⟩
  · simp [delimitedReader.isOpen, hb]
  · unfold delimitedReader.ReadByte
    rw [hb]
  · have hbyte : (d.Close p).1.ReadByte R = .panic := by
      unfold delimitedReader.ReadByte
      rw [hb]
    unfold delimitedReader.ReadMsg ReadUvarint ReadUvarintLoop
    rw [hbyte]

/-! ### A Read that delivers nothing -/

/-- C19 (the code at the failing input): the stream's first `Read` returns `(0, nil)`, its
second would deliver the byte 5; the buffer still holds 7 at index 0. `ReadByte` returns the
byte 7 with a nil error: a byte the stream never delivered, with no byte consumed. -/
theorem C19_ReadByte_returns_stale_byte :
    delimitedReader.ReadByte scriptReader
        { r := [([], none), ([5], none)], buf := some [7, 0, 0, 0] } =
      .ret ((7, none), { r := [([5], none)], buf := some [7, 0, 0, 0] }) := by
  rfl

/-- C18 (the code at the failing input): two readers with buffers of the same size over the
same stream, whose first `Read` returns `(0, nil)` and whose next two deliver the bytes 1
and 9. The reader whose buffer starts with 0 returns the empty message after one `Read`; the
reader whose buffer starts with 1 returns the message `[1]` after two. -/
theorem C18_outcome_depends_on_buffer :
    delimitedReader.ReadMsg scriptReader (fun bs => (Except.ok bs : Except Error (List Byte))) 5
        { r := [([], none), ([1], none), ([9], none)], buf := some [0, 0, 0, 0] } =
      .ret (.ok [], { r := [([1], none), ([9], none)], buf := some [0, 0, 0, 0] }) ∧
    delimitedReader.ReadMsg scriptReader (fun bs => (Except.ok bs : Except Error (List Byte))) 5
        { r := [([], none), ([1], none), ([9], none)], buf := some [1, 0, 0, 0] } =
      .ret (.ok [1], { r := [([9], none)], buf := some [1, 0, 0, 0] }) := by
  exact ⟨rfl, rfl⟩

/-! ### The buffer keeps its size and is never sliced out of range -/

theorem copyInto_length (buf data : List Byte) (n : Nat) (h : n + data.length ≤ buf.length) :
    (copyInto buf n data).length = buf.length := by
  unfold copyInto
  simp only [List.length_append, List.length_take, List.length_drop]
  omega

theorem ReadByte_bufLen {σ : Type} (R : Reader σ) (d d1 : delimitedReader σ)
    (x : Byte × Option Error) (h : d.ReadByte R = .ret (x, d1)) : d1.bufLen = d.bufLen := by
  unfold delimitedReader.ReadByte at h
  split at h
  · cases h
  · cases h
  · rename_i b0 tail hbuf
    cases h
    simp [delimitedReader.bufLen, hbuf]

theorem ReadByte_ne_panic {σ : Type} (R : Reader σ) (d : delimitedReader σ)
    (h : 1 ≤ d.bufLen) : d.ReadByte R ≠ .panic := by
  unfold delimitedReader.ReadByte
  split
  · rename_i hbuf
    simp [delimitedReader.bufLen, hbuf] at h
  · rename_i hbuf
    simp [delimitedReader.bufLen, hbuf] at h
  · simp

theorem ReadUvarintLoop_bufLen {σ : Type} (R : Reader σ) (fuel : Nat) :
    ∀ (x s : Nat) (d d1 : delimitedReader σ) (r : Nat × Option Error),
      ReadUvarintLoop R fuel x s d = .ret (r, d1) → d1.bufLen = d.bufLen := by
  induction fuel with
  | zero =>
    intro x s d d1 r h
    simp [ReadUvarintLoop] at h
  | succ fuel ih =>
    intro x s d d1 r h
    unfold ReadUvarintLoop at h
    cases hb : d.ReadByte R with
    | panic => rw [hb] at h; cases h
    | timeout => rw [hb] at h; cases h
    | ret v =>
      obtain ⟨⟨b, err⟩, d2⟩ := v
      have hlen := ReadByte_bufLen R d d2 (b, err) hb
      rw [hb] at h
      cases err with
      | some e =>
        simp only at h
        split at h <;> cases h <;> exact hlen
      | none =>
        simp only at h
        split at h
        · cases h; exact hlen
        · split at h
          · split at h <;> cases h <;> exact hlen
          · rw [ih _ _ _ _ _ h, hlen]

theorem ReadUvarintLoop_ne_panic {σ : Type} (R : Reader σ) (fuel : Nat) :
    ∀ (x s : Nat) (d : delimitedReader σ), 1 ≤ d.bufLen →
      ReadUvarintLoop R fuel x s d ≠ .panic := by
  induction fuel with
  | zero =>
    intro x s d _
    simp [ReadUvarintLoop]
  | succ fuel ih =>
    intro x s d hd
    unfold ReadUvarintLoop
    cases hb : d.ReadByte R with
    | panic => exact absurd hb (ReadByte_ne_panic R d hd)
    | timeout => simp
    | ret v =>
      obtain ⟨⟨b, err⟩, d2⟩ := v
      have hlen := ReadByte_bufLen R d d2 (b, err) hb
      cases err with
      | some e =>
        simp only
        split <;> simp
      | none =>
        simp only
        split
        · simp
        · split
          · split <;> simp
          · exact ih _ _ _ (by omega)

theorem ReadAtLeastLoop_length {σ : Type} (R : Reader σ) (min fuel : Nat) :
    ∀ (n : Nat) (err : Option Error) (buf : List Byte) (r : σ)
      (res : Nat × Option Error × List Byte × σ),
      n ≤ buf.length → ReadAtLeastLoop R min fuel n err buf r = .ret res →
      res.2.2.1.length = buf.length ∧ res.1 ≤ buf.length := by
  induction fuel with
  | zero =>
    intro n err buf r res hn h
    unfold ReadAtLeastLoop at h
    split at h
    · cases h
    · cases h; exact ⟨rfl, hn⟩
  | succ fuel ih =>
    intro n err buf r res hn h
    unfold ReadAtLeastLoop at h
    split at h
    · have hle := R.Read_le r (buf.length - n)
      have hc := copyInto_length buf (R.Read r (buf.length - n)).1 n (by omega)
      have := ih _ _ _ _ res (by rw [hc]; omega) h
      rw [hc] at this
      exact this
    · cases h; exact ⟨rfl, hn⟩

theorem ReadAtLeastLoop_ne_panic {σ : Type} (R : Reader σ) (min fuel : Nat) :
    ∀ (n : Nat) (err : Option Error) (buf : List Byte) (r : σ),
      ReadAtLeastLoop R min fuel n err buf r ≠ .panic := by
  induction fuel with
  | zero =>
    intro n err buf r
    unfold ReadAtLeastLoop
    split <;> simp
  | succ fuel ih =>
    intro n err buf r
    unfold ReadAtLeastLoop
    split
    · exact ih _ _ _ _
    · simp

theorem ReadFull_length {σ : Type} (R : Reader σ) (fuel : Nat) (r : σ) (buf : List Byte)
    (res : Nat × Option Error × List Byte × σ) (h : ReadFull R fuel r buf = .ret res) :
    res.2.2.1.length = buf.length := by
  unfold ReadFull ReadAtLeast at h
  rw [if_neg (lt_irrefl _)] at h
  cases hl : ReadAtLeastLoop R buf.length fuel 0 none buf r with
  | panic => rw [hl] at h; cases h
  | timeout => rw [hl] at h; cases h
  | ret v =>
    obtain ⟨n, err, buf1, r1⟩ := v
    have hlen := (ReadAtLeastLoop_length R _ _ _ _ _ _ _ (Nat.zero_le _) hl).1
    rw [hl] at h
    simp only at h hlen
    split at h
    · cases h; exact hlen
    · split at h <;> cases h <;> exact hlen

theorem ReadFull_ne_panic {σ : Type} (R : Reader σ) (fuel : Nat) (r : σ) (buf : List Byte) :
    ReadFull R fuel r buf ≠ .panic := by
  unfold ReadFull ReadAtLeast
  rw [if_neg (lt_irrefl _)]
  cases hl : ReadAtLeastLoop R buf.length fuel 0 none buf r with
  | panic => exact absurd hl (ReadAtLeastLoop_ne_panic R _ _ _ _ _ _)
  | timeout => simp
  | ret v =>
    obtain ⟨n, err, buf1, r1⟩ := v
    simp only
    split
    · simp
    · split <;> simp

theorem ReadMsg_bufLen {σ M : Type} (R : Reader σ) (Unmarshal : List Byte → Except Error M)
    (fuel : Nat) (d d1 : delimitedReader σ) (out : Except Error M)
    (h : d.ReadMsg R Unmarshal fuel = .ret (out, d1)) : d1.bufLen = d.bufLen := by
  unfold delimitedReader.ReadMsg at h
  cases hv : ReadUvarint R d with
  | panic => rw [hv] at h; cases h
  | timeout => rw [hv] at h; cases h
  | ret v =>
    obtain ⟨⟨mlen, err⟩, d2⟩ := v
    have hlen : d2.bufLen = d.bufLen := ReadUvarintLoop_bufLen R 10 0 0 d d2 (mlen, err) hv
    rw [hv] at h
    cases err with
    | some e =>
      simp only at h
      cases h
      exact hlen
    | none =>
      simp only at h
      split at h
      · cases h; exact hlen
      · rename_i hfit
        rw [sliceTo_of_fits d2 mlen hfit] at h
        simp only at h
        cases hf : ReadFull R fuel d2.r ((d2.buf.getD []).take mlen) with
        | panic => rw [hf] at h; cases h
        | timeout => rw [hf] at h; cases h
        | ret w =>
          obtain ⟨n, err1, buf1, r1⟩ := w
          have hb1 := ReadFull_length R fuel d2.r _ _ hf
          rw [hf] at h
          simp only at h hb1
          have hd : (({ r := r1, buf := d2.buf.map (fun w => buf1 ++ w.drop mlen) } :
              delimitedReader σ)).bufLen = d2.bufLen := by
            cases hbuf : d2.buf with
            | none => simp [delimitedReader.bufLen, hbuf]
            | some whole =>
              have hfit2 : mlen ≤ whole.length := by
                simp [delimitedReader.bufLen, hbuf] at hfit
                exact hfit
              simp only [hbuf, Option.getD_some, List.length_take] at hb1
              have hb2 : buf1.length = mlen := by omega
              simp only [delimitedReader.bufLen, hbuf, Option.map_some', List.length_append,
                List.length_drop, hb2]
              omega
          cases err1 with
          | some e => cases h; rw [hd, hlen]
          | none => cases h; rw [hd, hlen]

theorem ReadMsg_ne_panic {σ M : Type} (R : Reader σ) (Unmarshal : List Byte → Except Error M)
    (fuel : Nat) (d : delimitedReader σ) (hd : 1 ≤ d.bufLen) :
    d.ReadMsg R Unmarshal fuel ≠ .panic := by
  unfold delimitedReader.ReadMsg
  cases hv : ReadUvarint R d with
  | panic => exact absurd hv (ReadUvarintLoop_ne_panic R 10 0 0 d hd)
  | timeout => simp
  | ret v =>
    obtain ⟨⟨mlen, err⟩, d2⟩ := v
    cases err with
    | some e => simp
    | none =>
      simp only
      split
      · simp
      · rename_i hfit
        rw [sliceTo_of_fits d2 mlen hfit]
        simp only
        cases hf : ReadFull R fuel d2.r ((d2.buf.getD []).take mlen) with
        | panic => exact absurd hf (ReadFull_ne_panic R _ _ _)
        | timeout => simp
        | ret w =>
          obtain ⟨n, err1, buf1, r1⟩ := w
          cases err1 <;> simp

theorem ReadMsgTimes_ne_panic {σ M : Type} (R : Reader σ)
    (Unmarshal : List Byte → Except Error M) (fuel k : Nat) :
    ∀ d : delimitedReader σ, 1 ≤ d.bufLen → ReadMsgTimes R Unmarshal fuel k d ≠ .panic := by
  induction k with
  | zero =>
    intro d _
    simp [ReadMsgTimes]
  | succ k ih =>
    intro d hd
    unfold ReadMsgTimes
    cases hm : d.ReadMsg R Unmarshal fuel with
    | panic => exact absurd hm (ReadMsg_ne_panic R Unmarshal fuel d hd)
    | timeout => simp
    | ret v =>
      obtain ⟨out, d1⟩ := v
      have := ReadMsg_bufLen R Unmarshal fuel d d1 out hm
      exact ih d1 (by omega)

theorem newDelimitedReader_bufLen {σ : Type} (fill : Nat → Byte) (r : σ) (maxSize : Nat) :
    (newDelimitedReader fill r maxSize).bufLen = maxSize := by
  unfold newDelimitedReader pool.Get delimitedReader.bufLen
  by_cases h : maxSize = 0
  · simp [h]
  · simp [h]

theorem ReadMsgTimes_bufLen {σ M : Type} (R : Reader σ)
    (Unmarshal : List Byte → Except Error M) (fuel k : Nat) :
    ∀ d d1 : delimitedReader σ, ReadMsgTimes R Unmarshal fuel k d = .ret d1 →
      d1.bufLen = d.bufLen := by
  induction k with
  | zero =>
    intro d d1 h
    simp only [ReadMsgTimes] at h
    cases h
    rfl
  | succ k ih =>
    intro d d1 h
    unfold ReadMsgTimes at h
    cases hm : d.ReadMsg R Unmarshal fuel with
    | panic => rw [hm] at h; cases h
    | timeout => rw [hm] at h; cases h
    | ret v =>
      obtain ⟨out, d2⟩ := v
      rw [hm] at h
      rw [ih d2 d1 h, ReadMsg_bufLen R Unmarshal fuel d d2 out hm]

/-- C12: `newDelimitedReader(r, maxSize)` yields a reader with `len(buf) = maxSize`; whenever
`ReadByte` or `ReadMsg` returns on a reader with `len(buf) = maxSize`, with or without an
error and whatever the stream did, the reader still has `len(buf) = maxSize`; so after any
number of `ReadMsg` calls the size limit is the same `maxSize`. -/
theorem C12_buffer_size_invariant {σ M : Type} (R : Reader σ)
    (Unmarshal : List Byte → Except Error M) (fill : Nat → Byte) (r : σ)
    (maxSize fuel : Nat) :
    (newDelimitedReader fill r maxSize).bufLen = maxSize ∧
    (∀ d : delimitedReader σ, d.bufLen = maxSize →
      (∀ x d1, d.ReadByte R = .ret (x, d1) → d1.bufLen = maxSize) ∧
      (∀ out d1, d.ReadMsg R Unmarshal fuel = .ret (out, d1) → d1.bufLen = maxSize)) ∧
    (∀ k d1, ReadMsgTimes R Unmarshal fuel k (newDelimitedReader fill r maxSize) = .ret d1 →
      d1.bufLen = maxSize) := by
  refine ⟨newDelimitedReader_bufLen fill r maxSize, fun d hd => ⟨fun x d1 h => ?_,
    fun out d1 h => ?_⟩, fun k d1 h => ?_⟩
  · rw [ReadByte_bufLen R d d1 x h, hd]
  · rw [ReadMsg_bufLen R Unmarshal fuel d d1 out h, hd]
  · rw [ReadMsgTimes_bufLen R Unmarshal fuel k _ d1 h, newDelimitedReader_bufLen]

/-- C16: on a reader built with `maxSize >= 1`, for every behaviour of the stream and every
number of `ReadMsg` calls, no call panics: `d.buf[:1]` and `buf[0]` in `ReadByte` are in
bounds because `len(buf) = maxSize >= 1`, and the slice `d.buf[:mlen]` in `ReadMsg`, which is
taken to be out of range whenever `mlen > len(d.buf)`, is reached only with
`mlen <= len(d.buf)` and is then in range. With `maxSize = 0` the first `ReadByte` panics. -/
theorem C16_no_slice_out_of_range {σ M : Type} (R : Reader σ)
    (Unmarshal : List Byte → Except Error M) (fill : Nat → Byte) (r : σ)
    (maxSize fuel : Nat) (hpos : 1 ≤ maxSize) :
    (∀ k, ReadMsgTimes R Unmarshal fuel k (newDelimitedReader fill r maxSize) ≠ .panic) ∧
    (∀ d : delimitedReader σ, d.bufLen = maxSize →
      d.ReadByte R ≠ .panic ∧ d.ReadMsg R Unmarshal fuel ≠ .panic ∧
      (∀ mlen d1, ReadUvarint R d = .ret ((mlen, none), d1) → ¬ d1.bufLen < mlen →
        d1.bufLen = maxSize ∧ ∃ b, sliceTo d1.buf mlen = some b ∧ b.length = mlen)) ∧
    (∀ (buf : List Byte) (mlen : Nat), buf.length < mlen → sliceTo (some buf) mlen = none) ∧
    (newDelimitedReader fill r 0).ReadByte R = .panic := by
  refine ⟨fun k => ?_, fun d hd => ⟨?_, ?_, fun mlen d1 h hfit => ⟨?_, ?_⟩⟩,
    fun buf mlen h => ?_, rfl⟩
  · exact ReadMsgTimes_ne_panic R Unmarshal fuel k _
      (by rw [newDelimitedReader_bufLen]; exact hpos)
  · exact ReadByte_ne_panic R d (by omega)
  · exact ReadMsg_ne_panic R Unmarshal fuel d (by omega)
  · rw [ReadUvarintLoop_bufLen R 10 0 0 d d1 (mlen, none) h, hd]
  · refine ⟨_, sliceTo_of_fits d1 mlen hfit, ?_⟩
    have hle : mlen ≤ d1.bufLen := Nat.le_of_not_lt hfit
    unfold delimitedReader.bufLen at hle
    cases hb : d1.buf with
    | none =>
      rw [hb] at hle
      simp at hle
      simp [hle]
    | some whole =>
      rw [hb] at hle
      simp only at hle
      simp only [Option.getD_some, List.length_take]
      omega
  · simp [sliceTo, Nat.not_le.mpr h]

theorem C16_no_slice_out_of_range_witness :
    (∀ k, ReadMsgTimes scriptReader (fun bs => (Except.ok bs : Except Error (List Byte))) 5 k
        (newDelimitedReader (fun _ => 0) [([], none), ([200], none)] 4) ≠ .panic) ∧
    (∀ (buf : List Byte) (mlen : Nat), buf.length < mlen → sliceTo (some buf) mlen = none) ∧
    (newDelimitedReader (fun _ => 0) ([([], none), ([200], none)] : Script) 0).ReadByte
        scriptReader = .panic :=
  ⟨(C16_no_slice_out_of_range scriptReader (fun bs => (Except.ok bs : Except Error (List Byte)))
      (fun _ => 0) [([], none), ([200], none)] 4 5 (by decide)).1,
    (C16_no_slice_out_of_range scriptReader (fun bs => (Except.ok bs : Except Error (List Byte)))
      (fun _ => 0) [([], none), ([200], none)] 4 5 (by decide)).2.2⟩

/-! ### Reading a frame from a scripted stream -/

theorem Script_ReadByte_byte (b b0 : Byte) (err : Option Error) (rest : Script)
    (tail : List Byte) :
    delimitedReader.ReadByte scriptReader
        { r := ([b], err) :: rest, buf := some (b0 :: tail) } =
      .ret ((b, err), { r := rest, buf := some (b :: tail) }) :=
  rfl

theorem ReadUvarintLoop_last (fuel x s v : Nat) (rest : Script)
    (b0 : Byte) (tail : List Byte) (hs : s ≤ 56) (hv : v < 128) (hx : x < 2 ^ s)
    (hmin : v ≠ 0 ∨ s = 0) :
    ReadUvarintLoop scriptReader (fuel + 1) x s
        { r := byteReads [UInt8.ofNat v] ++ rest, buf := some (b0 :: tail) } =
      .ret ((x + v * 2 ^ s, none), { r := rest, buf := some (UInt8.ofNat v :: tail) }) := by
  have hb : (UInt8.ofNat v).toNat = v := by
    show v % 256 = v
    omega
  have hlt : x + v * 2 ^ s < 2 ^ 64 := by
    have h1 : x + v * 2 ^ s < 128 * 2 ^ s := by nlinarith
    have h2 : 128 * 2 ^ s ≤ 2 ^ 7 * 2 ^ 56 :=
      Nat.mul_le_mul (by norm_num) (Nat.pow_le_pow_right (by norm_num) hs)
    have h3 : (2:Nat) ^ 7 * 2 ^ 56 < 2 ^ 64 := by norm_num
    omega
  show ReadUvarintLoop scriptReader (fuel + 1) x s
      { r := ([UInt8.ofNat v], none) :: rest, buf := some (b0 :: tail) } = _
  unfold ReadUvarintLoop
  rw [Script_ReadByte_byte]
  simp only [hb]
  have c1 : ¬ ((s = 56 ∧ v ≥ 0x80) ∨ s ≥ 7 * 9) := by omega
  have c2 : ¬ (v = 0 ∧ s > 0) := by omega
  rw [if_neg c1, if_pos hv, if_neg c2, or_shift_eq_add x v s hx, Nat.mod_eq_of_lt hlt]

theorem ReadUvarintLoop_PutUvarint (g : Nat) :
    ∀ (x v : Nat) (rest : Script) (b0 : Byte) (tail : List Byte),
      g ≤ 8 → v < 2 ^ (7 * (g + 1)) → x < 2 ^ (56 - 7 * g) → (v ≠ 0 ∨ g = 8) →
      ∃ b : Byte,
        ReadUvarintLoop scriptReader (g + 2) x (56 - 7 * g)
            { r := byteReads (PutUvarintLoop (g + 1) v) ++ rest, buf := some (b0 :: tail) } =
          .ret ((x + v * 2 ^ (56 - 7 * g), none), { r := rest, buf := some (b :: tail) }) := by
  induction g with
  | zero =>
    intro x v rest b0 tail _ hv hx hmin
    have hv' : v < 128 := by simpa using hv
    have hput : PutUvarintLoop 1 v = [UInt8.ofNat v] := by
      unfold PutUvarintLoop
      rw [if_neg (by omega)]
    refine ⟨UInt8.ofNat v, ?_⟩
    rw [hput]
    exact ReadUvarintLoop_last 1 x 56 v rest b0 tail (le_refl _) hv' hx (by omega)
  | succ g ih =>
    intro x v rest b0 tail hg hv hx hmin
    by_cases hsmall : v < 128
    · have hput : PutUvarintLoop (g + 1 + 1) v = [UInt8.ofNat v] := by
        unfold PutUvarintLoop
        rw [if_neg (by omega)]
      refine ⟨UInt8.ofNat v, ?_⟩
      rw [hput]
      exact ReadUvarintLoop_last (g + 2) x _ v rest b0 tail (by omega) hsmall hx
        (by omega)
    · have hput : PutUvarintLoop (g + 1 + 1) v =
          UInt8.ofNat ((v % 256) ||| 0x80) :: PutUvarintLoop (g + 1) (v >>> 7) := by
        conv => lhs; unfold PutUvarintLoop
        rw [if_pos (by omega)]
      have hm : v % 256 < 256 := Nat.mod_lt _ (by norm_num)
      have hf := byte_facts ⟨v % 256, hm⟩
      simp only at hf
      obtain ⟨hf1, hf2, hf3⟩ := hf
      have hmm : v % 256 % 128 = v % 128 := by omega
      rw [hmm] at hf1
      have hb : (UInt8.ofNat ((v % 256) ||| 0x80)).toNat = (v % 256) ||| 128 := by
        show ((v % 256) ||| 128) % 256 = _
        exact Nat.mod_eq_of_lt hf3
      have hs7 : 56 - 7 * (g + 1) + 7 = 56 - 7 * g := by omega
      have hx2 : x + (v % 128) * 2 ^ (56 - 7 * (g + 1)) < 2 ^ (56 - 7 * g) := by
        rw [← hs7, Nat.pow_add]
        have : v % 128 < 128 := Nat.mod_lt _ (by norm_num)
        nlinarith
      have hv2 : v >>> 7 < 2 ^ (7 * (g + 1)) := by
        rw [Nat.shiftRight_eq_div_pow]
        apply Nat.div_lt_of_lt_mul
        have : 7 * (g + 1 + 1) = 7 + 7 * (g + 1) := by ring
        rw [this, Nat.pow_add] at hv
        exact hv
      have hv3 : v >>> 7 ≠ 0 := by
        rw [Nat.shiftRight_eq_div_pow]
        have : 1 ≤ v / 2 ^ 7 := (Nat.le_div_iff_mul_le (by norm_num)).mpr (by omega)
        omega
      obtain ⟨b, hrec⟩ := ih (x + (v % 128) * 2 ^ (56 - 7 * (g + 1))) (v >>> 7) rest
        (UInt8.ofNat ((v % 256) ||| 0x80)) tail (by omega) hv2 hx2 (Or.inl hv3)
      refine ⟨b, ?_⟩
      rw [hput]
      show ReadUvarintLoop scriptReader (g + 1 + 2) x (56 - 7 * (g + 1))
        { r := ([UInt8.ofNat ((v % 256) ||| 0x80)], none) ::
            (byteReads (PutUvarintLoop (g + 1) (v >>> 7)) ++ rest),
          buf := some (b0 :: tail) } = _
      unfold ReadUvarintLoop
      rw [Script_ReadByte_byte]
      simp only [hb]
      have c1 : ¬ ((56 - 7 * (g + 1) = 56 ∧ (v % 256 ||| 128) ≥ 0x80) ∨
          56 - 7 * (g + 1) ≥ 7 * 9) := by omega
      have c2 : ¬ ((v % 256 ||| 128) < 0x80) := by omega
      have hlt64 : x + (v % 128) * 2 ^ (56 - 7 * (g + 1)) < 2 ^ 64 :=
        lt_of_lt_of_le hx2 (Nat.pow_le_pow_right (by norm_num) (by omega))
      rw [if_neg c1, if_neg c2, hf1, or_shift_eq_add _ _ _ hx, Nat.mod_eq_of_lt hlt64, hs7, hrec]
      congr 3
      rw [Nat.shiftRight_eq_div_pow, ← hs7, Nat.pow_add]
      have := Nat.mod_add_div v 128
      have e7 : (2:Nat) ^ 7 = 128 := by norm_num
      rw [e7]
      nlinarith [Nat.mod_add_div v 128]

theorem ReadUvarint_PutUvarint (N : Nat) (hN : N < 2 ^ 63) (rest : Script)
    (b0 : Byte) (tail : List Byte) :
    ∃ b : Byte,
      ReadUvarint scriptReader
          { r := byteReads (PutUvarint N) ++ rest, buf := some (b0 :: tail) } =
        .ret ((N, none), { r := rest, buf := some (b :: tail) }) := by
  obtain ⟨b, h⟩ := ReadUvarintLoop_PutUvarint 8 0 N rest b0 tail (le_refl _)
    (by simpa using hN) (by norm_num) (Or.inr rfl)
  refine ⟨b, ?_⟩
  simpa [ReadUvarint, PutUvarint] using h

/-- One `Read` of the loop of `io.ReadAtLeast` on a scripted stream. -/
theorem ReadAtLeastLoop_step (min fuel : Nat) (done junk data : List Byte) (err : Option Error)
    (tl : Script) (hn : done.length < min) (hle : data.length ≤ junk.length) :
    ReadAtLeastLoop scriptReader min (fuel + 1) done.length none (done ++ junk)
        ((data, err) :: tl) =
      ReadAtLeastLoop scriptReader min fuel (done ++ data).length err
        ((done ++ data) ++ junk.drop data.length) tl := by
  rw [ReadAtLeastLoop, if_pos ⟨hn, rfl⟩]
  have hreq : (done ++ junk).length - done.length = junk.length := by simp
  have hread : scriptReader.Read ((data, err) :: tl) junk.length = (data, err, tl) := by
    show (data.take junk.length, err, tl) = _
    rw [List.take_of_length_le hle]
  have hcopy : copyInto (done ++ junk) done.length data =
      (done ++ data) ++ junk.drop data.length := by
    unfold copyInto
    simp [List.take_append_of_le_length, List.drop_append_eq_append_drop]
  simp only [hreq, hread, hcopy]
  rw [List.length_append]

theorem ReadAtLeastLoop_chunks (min : Nat) (tl : Script) (cs : List (List Byte)) :
    ∀ (fuel : Nat) (done junk : List Byte),
      cs.flatten.length ≤ junk.length → done.length + cs.flatten.length < min →
      ReadAtLeastLoop scriptReader min (cs.length + fuel) done.length none (done ++ junk)
          (chunkReads cs ++ tl) =
        ReadAtLeastLoop scriptReader min fuel (done ++ cs.flatten).length none
          ((done ++ cs.flatten) ++ junk.drop cs.flatten.length) tl := by
  induction cs with
  | nil =>
    intro fuel done junk _ _
    simp [chunkReads]
  | cons c cs ih =>
    intro fuel done junk hle hlt
    simp only [List.flatten_cons, List.length_append] at hle hlt
    have hfuel : (c :: cs).length + fuel = (cs.length + fuel) + 1 := by
      simp only [List.length_cons]; omega
    show ReadAtLeastLoop scriptReader min ((c :: cs).length + fuel) done.length none
      (done ++ junk) ((c, none) :: (chunkReads cs ++ tl)) = _
    rw [hfuel, ReadAtLeastLoop_step min _ done junk c none _ (by omega) (by omega),
      ih fuel (done ++ c) (junk.drop c.length) (by simp only [List.length_drop]; omega)
        (by simp only [List.length_append]; omega)]
    simp only [List.flatten_cons, List.append_assoc, List.drop_drop, List.length_append]

theorem ReadFull_empty {σ : Type} (R : Reader σ) (fuel : Nat) (r : σ) :
    ReadFull R fuel r [] = .ret (0, none, [], r) := by
  unfold ReadFull ReadAtLeast
  rw [if_neg (lt_irrefl _), ReadAtLeastLoop_done _ _ _ _ _ _ _ (by simp)]
  simp

/-- `io.ReadFull` on a scripted stream whose `Read`s hand over the chunks `cs` and then, in
one more `Read`, the last missing bytes `last`: the error that `Read` returns is dropped. -/
theorem ReadFull_script_complete (cs : List (List Byte)) (last : List Byte) (err : Option Error)
    (tl : Script) (junk : List Byte) (fuel : Nat) (hfuel : cs.length + 1 ≤ fuel)
    (hlast : last ≠ []) (hlen : junk.length = cs.flatten.length + last.length) :
    ReadFull scriptReader fuel (chunkReads cs ++ (last, err) :: tl) junk =
      .ret (junk.length, none, cs.flatten ++ last, tl) := by
  have hpos : 0 < last.length := List.length_pos.mpr hlast
  obtain ⟨f, hf⟩ : ∃ f, fuel = cs.length + (f + 1) := ⟨fuel - cs.length - 1, by omega⟩
  subst hf
  unfold ReadFull ReadAtLeast
  rw [if_neg (lt_irrefl _)]
  have h := ReadAtLeastLoop_chunks junk.length ((last, err) :: tl) cs (f + 1) [] junk
    (by omega) (by simp only [List.length_nil]; omega)
  simp only [List.nil_append, List.length_nil] at h
  rw [h]
  have h2 := ReadAtLeastLoop_step junk.length f cs.flatten (junk.drop cs.flatten.length) last err
    tl (by omega) (by simp only [List.length_drop]; omega)
  rw [h2]
  have hdone : ¬ (cs.flatten ++ last).length < junk.length := by
    simp only [List.length_append]; omega
  rw [ReadAtLeastLoop_done _ _ _ _ _ _ _ hdone]
  have hdrop : (junk.drop cs.flatten.length).drop last.length = [] := by
    apply List.drop_eq_nil_of_le
    simp only [List.length_drop]; omega
  have hge : (cs.flatten ++ last).length ≥ junk.length := by
    simp only [List.length_append]; omega
  simp only [hdrop, List.append_nil, if_pos hge]
  rw [hlen]
  simp

/-- `io.ReadFull` on a scripted stream whose `Read`s hand over the chunks `cs` and then return
the error `e` (with the bytes `bad`) while bytes are still missing: the error is returned,
`io.EOF` as `io.ErrUnexpectedEOF` when some bytes were read. -/
theorem ReadFull_script_short (cs : List (List Byte)) (bad : List Byte) (e : Error)
    (tl : Script) (junk : List Byte) (fuel : Nat) (hfuel : cs.length + 1 ≤ fuel)
    (hshort : cs.flatten.length + bad.length < junk.length) :
    ∃ buf1 : List Byte,
      ReadFull scriptReader fuel (chunkReads cs ++ (bad, some e) :: tl) junk =
        .ret (cs.flatten.length + bad.length,
          some (if e = Error.EOF ∧ 0 < cs.flatten.length + bad.length
            then Error.ErrUnexpectedEOF else e), buf1, tl) := by
  obtain ⟨f, hf⟩ : ∃ f, fuel = cs.length + (f + 1) := ⟨fuel - cs.length - 1, by omega⟩
  subst hf
  unfold ReadFull ReadAtLeast
  rw [if_neg (lt_irrefl _)]
  have h := ReadAtLeastLoop_chunks junk.length ((bad, some e) :: tl) cs (f + 1) [] junk
    (by omega) (by simp only [List.length_nil]; omega)
  simp only [List.nil_append, List.length_nil] at h
  rw [h]
  have h2 := ReadAtLeastLoop_step junk.length f cs.flatten (junk.drop cs.flatten.length) bad
    (some e) tl (by omega) (by simp only [List.length_drop]; omega)
  rw [h2, ReadAtLeastLoop_err]
  have hlt : ¬ cs.flatten.length + bad.length ≥ junk.length := by omega
  simp only [List.length_append, if_neg hlt]
  by_cases hc : e = Error.EOF ∧ 0 < cs.flatten.length + bad.length
  · have hc2 : cs.flatten.length + bad.length > 0 ∧ some e = some Error.EOF :=
      ⟨hc.2, by rw [hc.1]⟩
    rw [if_pos hc2, if_pos hc]
    exact ⟨_, rfl⟩
  · have hc2 : ¬ (cs.flatten.length + bad.length > 0 ∧ some e = some Error.EOF) := by
      rintro ⟨h1, h2⟩
      injection h2 with h2
      exact hc ⟨h2, h1⟩
    rw [if_neg hc2, if_neg hc]
    exact ⟨_, rfl⟩

theorem Script_bytes_append (s t : Script) : Script.bytes (s ++ t) = Script.bytes s ++ Script.bytes t := by
  simp [Script.bytes]

theorem Script_bytes_byteReads (bs : List Byte) : Script.bytes (byteReads bs) = bs := by
  induction bs with
  | nil => rfl
  | cons b bs ih =>
    have : Script.bytes (byteReads (b :: bs)) = b :: Script.bytes (byteReads bs) := by
      simp [Script.bytes, byteReads]
    rw [this, ih]

theorem Script_bytes_chunkReads (cs : List (List Byte)) :
    Script.bytes (chunkReads cs) = cs.flatten := by
  induction cs with
  | nil => rfl
  | cons c cs ih =>
    have : Script.bytes (chunkReads (c :: cs)) = c ++ Script.bytes (chunkReads cs) := by
      simp [Script.bytes, chunkReads]
    rw [this, ih]
    simp

theorem chunkReads_of_nil_errors (L : Script) (h : ∀ c ∈ L, c.2 = none) :
    L = chunkReads (L.map (fun c => c.1)) := by
  induction L with
  | nil => rfl
  | cons c L ih =>
    obtain ⟨data, err⟩ := c
    have hc : err = none := h (data, err) (by simp)
    subst hc
    have := ih (fun c hc => h c (by simp [hc]))
    simp only [chunkReads, List.map_cons, List.map_map] at this ⊢
    rw [← this]

/-- What `handsOver` says of a payload that is not empty: `Read`s with a nil error deliver
chunks `cs` and one more `Read` delivers the last bytes `last`, with an error `e` or without. -/
theorem handsOver_cases (reads : Script) (payload : List Byte) (h : handsOver reads payload) :
    (payload = [] ∧ reads = []) ∨
      ∃ (cs : List (List Byte)) (last : List Byte) (e : Option Error),
        last ≠ [] ∧ payload = cs.flatten ++ last ∧ reads = chunkReads cs ++ [(last, e)] := by
  rcases List.eq_nil_or_concat reads with hnil | ⟨L, c, hL⟩
  · subst hnil
    exact Or.inl ⟨h, rfl⟩
  · rw [List.concat_eq_append] at hL
    subst hL
    obtain ⟨last, e⟩ := c
    have hg : (L ++ [(last, e)]).getLast? = some (last, e) := List.getLast?_concat L
    unfold handsOver at h
    rw [hg] at h
    simp only [List.dropLast_concat] at h
    obtain ⟨h1, h2, h3⟩ := h
    have hLc := chunkReads_of_nil_errors L h2
    refine Or.inr ⟨L.map (fun c => c.1), last, e, h1, ?_, by rw [← hLc]⟩
    rw [← h3, Script_bytes_append]
    simp [Script.bytes]

theorem handsOver_intro (cs : List (List Byte)) (last : List Byte) (e : Option Error)
    (hlast : last ≠ []) : handsOver (chunkReads cs ++ [(last, e)]) (cs.flatten ++ last) := by
  have hg : (chunkReads cs ++ [(last, e)]).getLast? = some (last, e) := List.getLast?_concat _
  unfold handsOver
  rw [hg]
  simp only [List.dropLast_concat]
  refine ⟨hlast, ?_, ?_⟩
  · intro c hc
    simp only [chunkReads, List.mem_map] at hc
    obtain ⟨a, _, ha⟩ := hc
    rw [← ha]
  · rw [Script_bytes_append, Script_bytes_chunkReads]
    simp [Script.bytes]

theorem handsOver_bytes (reads : Script) (payload : List Byte) (h : handsOver reads payload) :
    Script.bytes reads = payload := by
  rcases handsOver_cases _ _ h with ⟨h1, h2⟩ | ⟨cs, last, e, _, h1, h2⟩
  · subst h1 h2
    rfl
  · subst h1 h2
    rw [Script_bytes_append, Script_bytes_chunkReads]
    simp [Script.bytes]

theorem ReadMsg_script_frame {M : Type} (Unmarshal : List Byte → Except Error M)
    (N fuel : Nat) (payload : List Byte) (reads rest : Script) (buf : List Byte)
    (hbuf : 0 < buf.length) (hN : N < 2 ^ 63) (hpl : payload.length = N)
    (hfit : N ≤ buf.length) (hreads : handsOver reads payload) (hfuel : reads.length ≤ fuel) :
    ∃ d1 : delimitedReader Script,
      delimitedReader.ReadMsg scriptReader Unmarshal fuel
          { r := byteReads (PutUvarint N) ++ reads ++ rest, buf := some buf } =
        .ret (Unmarshal payload, d1) ∧ d1.r = rest ∧ d1.bufLen = buf.length := by
  subst hpl
  cases buf with
  | nil => simp at hbuf
  | cons b0 tail =>
    obtain ⟨b, hvar⟩ := ReadUvarint_PutUvarint _ hN (reads ++ rest) b0 tail
    have hlen : ¬ (delimitedReader.bufLen
        ({ r := reads ++ rest, buf := some (b :: tail) } : delimitedReader Script) <
          payload.length) := by
      simp only [delimitedReader.bufLen, List.length_cons] at *
      omega
    have hjunk : ((b :: tail).take payload.length).length = payload.length := by
      simp only [List.length_take, List.length_cons] at *
      omega
    have hfull : ReadFull scriptReader fuel (reads ++ rest) ((b :: tail).take payload.length) =
        .ret (payload.length, none, payload, rest) := by
      rcases handsOver_cases _ _ hreads with ⟨h1, h2⟩ | ⟨cs, last, e, hlast, h1, h2⟩
      · subst h1 h2
        simp only [List.length_nil, List.take_zero, List.nil_append]
        exact ReadFull_empty _ _ _
      · subst h2
        have hl : ((b :: tail).take payload.length).length =
            cs.flatten.length + last.length := by
          rw [hjunk, h1, List.length_append]
        have := ReadFull_script_complete cs last e rest ((b :: tail).take payload.length) fuel
          (by simpa [chunkReads] using hfuel) hlast hl
        rw [List.append_assoc, List.singleton_append, this, hjunk, h1]
    have hrun : delimitedReader.ReadMsg scriptReader Unmarshal fuel
        { r := byteReads (PutUvarint payload.length) ++ reads ++ rest,
          buf := some (b0 :: tail) } =
        .ret (Unmarshal payload,
          { r := rest, buf := some (payload ++ (b :: tail).drop payload.length) }) := by
      unfold delimitedReader.ReadMsg
      rw [List.append_assoc, hvar]
      simp only [hlen, if_false, sliceTo_of_fits _ _ hlen, Option.getD_some, hfull,
        Option.map_some']
    refine ⟨_, hrun, rfl, ?_⟩
    rw [ReadMsg_bufLen _ _ _ _ _ _ hrun]
    rfl

theorem ReadMsg_script_short {M : Type} (Unmarshal : List Byte → Except Error M)
    (N fuel : Nat) (cs : List (List Byte)) (bad : List Byte) (e : Error) (post : Script)
    (buf : List Byte) (hbuf : 0 < buf.length) (hN : N < 2 ^ 63) (hfit : N ≤ buf.length)
    (hshort : cs.flatten.length + bad.length < N) (hfuel : cs.length + 1 ≤ fuel) :
    ∃ d1 : delimitedReader Script,
      delimitedReader.ReadMsg scriptReader Unmarshal fuel
          { r := byteReads (PutUvarint N) ++ chunkReads cs ++ (bad, some e) :: post,
            buf := some buf } =
        .ret (.error (if e = Error.EOF ∧ 0 < cs.flatten.length + bad.length
          then Error.ErrUnexpectedEOF else e), d1) ∧ d1.r = post ∧ d1.bufLen = buf.length := by
  cases buf with
  | nil => simp at hbuf
  | cons b0 tail =>
    obtain ⟨b, hvar⟩ := ReadUvarint_PutUvarint N hN (chunkReads cs ++ (bad, some e) :: post)
      b0 tail
    have hlen : ¬ (delimitedReader.bufLen
        ({ r := chunkReads cs ++ (bad, some e) :: post, buf := some (b :: tail) } :
          delimitedReader Script) < N) := by
      simp only [delimitedReader.bufLen, List.length_cons] at *
      omega
    have hjunk : ((b :: tail).take N).length = N := by
      simp only [List.length_take, List.length_cons] at *
      omega
    obtain ⟨buf1, hfull⟩ := ReadFull_script_short cs bad e post ((b :: tail).take N) fuel hfuel
      (by rw [hjunk]; exact hshort)
    have hrun : delimitedReader.ReadMsg scriptReader Unmarshal fuel
        { r := byteReads (PutUvarint N) ++ chunkReads cs ++ (bad, some e) :: post,
          buf := some (b0 :: tail) } =
        .ret (.error (if e = Error.EOF ∧ 0 < cs.flatten.length + bad.length
            then Error.ErrUnexpectedEOF else e),
          { r := post, buf := some (buf1 ++ (b :: tail).drop N) }) := by
      unfold delimitedReader.ReadMsg
      rw [List.append_assoc, hvar]
      simp only [hlen, if_false, sliceTo_of_fits _ _ hlen, Option.getD_some, hfull,
        Option.map_some']
    refine ⟨_, hrun, rfl, ?_⟩
    rw [ReadMsg_bufLen _ _ _ _ _ _ hrun]
    rfl

theorem ReadMsg_script_tooLarge {M : Type} (Unmarshal : List Byte → Except Error M)
    (N fuel : Nat) (rest : Script) (buf : List Byte)
    (hbuf : 0 < buf.length) (hN : N < 2 ^ 63) (hbig : buf.length < N) :
    ∃ d1 : delimitedReader Script,
      delimitedReader.ReadMsg scriptReader Unmarshal fuel
          { r := byteReads (PutUvarint N) ++ rest, buf := some buf } =
        .ret (.error (Error.New "message too large"), d1) ∧
      d1.r = rest ∧ d1.bufLen = buf.length := by
  cases buf with
  | nil => simp at hbuf
  | cons b0 tail =>
    obtain ⟨b, hvar⟩ := ReadUvarint_PutUvarint N hN rest b0 tail
    have hlen : delimitedReader.bufLen
        ({ r := rest, buf := some (b :: tail) } : delimitedReader Script) < N := by
      simpa [delimitedReader.bufLen] using hbig
    have hrun : delimitedReader.ReadMsg scriptReader Unmarshal fuel
        { r := byteReads (PutUvarint N) ++ rest, buf := some (b0 :: tail) } =
        .ret (.error (Error.New "message too large"), { r := rest, buf := some (b :: tail) }) := by
      unfold delimitedReader.ReadMsg
      rw [hvar]
      simp only [hlen, if_true]
    exact ⟨_, hrun, rfl, by simp [delimitedReader.bufLen]⟩

theorem ReadAtLeastLoop_script_errs (P : Error → Prop) (hEOF : P Error.EOF) (min fuel : Nat) :
    ∀ (n : Nat) (err : Option Error) (buf : List Byte) (s : Script)
      (res : Nat × Option Error × List Byte × Script),
      (∀ e, err = some e → P e) → (∀ c ∈ s, ∀ e, c.2 = some e → P e) →
      ReadAtLeastLoop scriptReader min fuel n err buf s = .ret res →
      ∀ e, res.2.1 = some e → P e := by
  induction fuel with
  | zero =>
    intro n err buf s res herr _ h
    unfold ReadAtLeastLoop at h
    split at h
    · cases h
    · cases h; exact herr
  | succ fuel ih =>
    intro n err buf s res herr hs h
    unfold ReadAtLeastLoop at h
    split at h
    · cases s with
      | nil =>
        refine ih _ _ _ _ res ?_ ?_ h
        · intro e he
          have : (scriptReader.Read [] (buf.length - n)).2.1 = some Error.EOF := rfl
          rw [this] at he
          injection he with he
          rw [← he]
          exact hEOF
        · intro c hc
          have : (scriptReader.Read [] (buf.length - n)).2.2 = [] := rfl
          rw [this] at hc
          cases hc
      | cons c tl =>
        obtain ⟨data, cerr⟩ := c
        refine ih _ _ _ _ res ?_ ?_ h
        · intro e he
          exact hs (data, cerr) (by simp) e he
        · intro c hc
          exact hs c (List.mem_cons_of_mem _ hc)
    · cases h; exact herr

theorem ReadMsg_script_fits {M : Type} (Unmarshal : List Byte → Except Error M)
    (hU : ∀ bs, Unmarshal bs ≠ .error (Error.New "message too large"))
    (N fuel : Nat) (rest : Script) (buf : List Byte)
    (hS : ∀ c ∈ rest, c.2 ≠ some (Error.New "message too large"))
    (hbuf : 0 < buf.length) (hN : N < 2 ^ 63) (hfit : N ≤ buf.length)
    (d1 : delimitedReader Script) :
    delimitedReader.ReadMsg scriptReader Unmarshal fuel
        { r := byteReads (PutUvarint N) ++ rest, buf := some buf } ≠
      .ret (.error (Error.New "message too large"), d1) := by
  cases buf with
  | nil => simp at hbuf
  | cons b0 tail =>
    obtain ⟨b, hvar⟩ := ReadUvarint_PutUvarint N hN rest b0 tail
    unfold delimitedReader.ReadMsg
    rw [hvar]
    have hlen : ¬ delimitedReader.bufLen
        ({ r := rest, buf := some (b :: tail) } : delimitedReader Script) < N := by
      simp only [delimitedReader.bufLen, List.length_cons] at *
      omega
    simp only [hlen, if_false, sliceTo_of_fits _ _ hlen, Option.getD_some]
    unfold ReadFull ReadAtLeast
    rw [if_neg (lt_irrefl _)]
    cases hl : ReadAtLeastLoop scriptReader ((b :: tail).take N).length fuel 0 none
        ((b :: tail).take N) rest with
    | panic => simp
    | timeout => simp
    | ret v =>
      obtain ⟨n, err, buf1, r1⟩ := v
      have herr := ReadAtLeastLoop_script_errs (fun e => e ≠ Error.New "message too large")
        (by intro h; cases h) _ _ _ _ _ _ _ (by intro e he; cases he)
        (fun c hc e he => by
          intro hbad
          rw [hbad] at he
          exact hS c hc he) hl
      simp only at herr
      simp only
      by_cases hge : n ≥ ((b :: tail).take N).length
      · rw [if_pos hge]
        simp only
        intro hcontra
        injection hcontra with hc
        injection hc with hc1 hc2
        exact hU _ hc1
      · rw [if_neg hge]
        by_cases hc : n > 0 ∧ err = some Error.EOF
        · rw [if_pos hc]
          simp
        · rw [if_neg hc]
          cases err with
          | none =>
            simp only
            intro hcontra
            injection hcontra with hc
            injection hc with hc1 hc2
            exact hU _ hc1
          | some e =>
            simp only
            intro hcontra
            injection hcontra with hc
            injection hc with hc1 hc2
            injection hc1 with hc1
            exact herr e rfl hc1

/-- The loop of `varint.ReadUvarint` on a scripted stream that hands over the continuation
bytes `conts` (an incomplete length prefix) and then returns the error `e`. -/
theorem ReadUvarintLoop_conts (e : Error) (bad : List Byte) (post : Script) :
    ∀ (conts : List Byte) (fuel x i : Nat) (b0 : Byte) (tail : List Byte),
      (∀ c ∈ conts, 0x80 ≤ c.toNat) → conts.length + i ≤ 8 → conts.length + 1 ≤ fuel →
      ∃ b : Byte,
        ReadUvarintLoop scriptReader fuel x (7 * i)
            { r := byteReads conts ++ (bad, some e) :: post, buf := some (b0 :: tail) } =
          .ret ((0, some (if e = Error.EOF ∧ (i ≠ 0 ∨ conts ≠ []) then Error.ErrUnexpectedEOF
            else e)), { r := post, buf := some (b :: tail) }) := by
  intro conts
  induction conts with
  | nil =>
    intro fuel x i b0 tail _ _ hfuel
    obtain ⟨f, hf⟩ : ∃ f, fuel = f + 1 := ⟨fuel - 1, by simp at hfuel; omega⟩
    subst hf
    obtain ⟨b, hb⟩ := Script_ReadByte bad (some e) post b0 tail
    refine ⟨b, ?_⟩
    show ReadUvarintLoop scriptReader (f + 1) x (7 * i)
      { r := (bad, some e) :: post, buf := some (b0 :: tail) } = _
    unfold ReadUvarintLoop
    rw [hb]
    simp only
    by_cases hc : e = Error.EOF ∧ 7 * i ≠ 0
    · have hc2 : e = Error.EOF ∧ (i ≠ 0 ∨ ([] : List Byte) ≠ []) := ⟨hc.1, Or.inl (by omega)⟩
      rw [if_pos hc, if_pos hc2]
    · have hc2 : ¬ (e = Error.EOF ∧ (i ≠ 0 ∨ ([] : List Byte) ≠ [])) := by
        rintro ⟨h1, h2 | h2⟩
        · exact hc ⟨h1, by omega⟩
        · exact h2 rfl
      rw [if_neg hc, if_neg hc2]
  | cons c conts ih =>
    intro fuel x i b0 tail hconts hlen hfuel
    simp only [List.length_cons] at hlen hfuel
    obtain ⟨f, hf⟩ : ∃ f, fuel = f + 1 := ⟨fuel - 1, by omega⟩
    subst hf
    have hc : 0x80 ≤ c.toNat := hconts c (by simp)
    obtain ⟨b, hrec⟩ := ih f ((x ||| ((c.toNat &&& 0x7f) <<< (7 * i))) % 2 ^ 64) (i + 1) c tail
      (fun q hq => hconts q (by simp [hq])) (by omega) (by omega)
    refine ⟨b, ?_⟩
    show ReadUvarintLoop scriptReader (f + 1) x (7 * i)
      { r := ([c], none) :: (byteReads conts ++ (bad, some e) :: post),
        buf := some (b0 :: tail) } = _
    unfold ReadUvarintLoop
    rw [Script_ReadByte_byte]
    simp only
    have c1 : ¬ ((7 * i = 56 ∧ c.toNat ≥ 0x80) ∨ 7 * i ≥ 7 * 9) := by omega
    have c2 : ¬ (c.toNat < 0x80) := by omega
    have h7 : 7 * i + 7 = 7 * (i + 1) := by ring
    rw [if_neg c1, if_neg c2, h7, hrec]
    by_cases he : e = Error.EOF
    · have p1 : e = Error.EOF ∧ (i + 1 ≠ 0 ∨ conts ≠ []) := ⟨he, Or.inl (by omega)⟩
      have p2 : e = Error.EOF ∧ (i ≠ 0 ∨ c :: conts ≠ []) := ⟨he, Or.inr (by simp)⟩
      rw [if_pos p1, if_pos p2]
    · have p1 : ¬ (e = Error.EOF ∧ (i + 1 ≠ 0 ∨ conts ≠ [])) := fun h => he h.1
      have p2 : ¬ (e = Error.EOF ∧ (i ≠ 0 ∨ c :: conts ≠ [])) := fun h => he h.1
      rw [if_neg p1, if_neg p2]

theorem ReadMsg_script_prefix_err {M : Type} (Unmarshal : List Byte → Except Error M)
    (fuel : Nat) (conts bad : List Byte) (e : Error) (post : Script) (buf : List Byte)
    (hbuf : 0 < buf.length) (hconts : ∀ c ∈ conts, 0x80 ≤ c.toNat) (hlen : conts.length ≤ 8) :
    ∃ d1 : delimitedReader Script,
      delimitedReader.ReadMsg scriptReader Unmarshal fuel
          { r := byteReads conts ++ (bad, some e) :: post, buf := some buf } =
        .ret (.error (if e = Error.EOF ∧ conts ≠ [] then Error.ErrUnexpectedEOF else e), d1) ∧
      d1.r = post ∧ d1.bufLen = buf.length := by
  cases buf with
  | nil => simp at hbuf
  | cons b0 tail =>
    obtain ⟨b, hvar⟩ := ReadUvarintLoop_conts e bad post conts 10 0 0 b0 tail hconts
      (by omega) (by omega)
    simp only [Nat.mul_zero, ne_eq, not_true_eq_false, false_or] at hvar
    have hrun : delimitedReader.ReadMsg scriptReader Unmarshal fuel
        { r := byteReads conts ++ (bad, some e) :: post, buf := some (b0 :: tail) } =
        .ret (.error (if e = Error.EOF ∧ conts ≠ [] then Error.ErrUnexpectedEOF else e),
          { r := post, buf := some (b :: tail) }) := by
      unfold delimitedReader.ReadMsg ReadUvarint
      rw [hvar]
    exact ⟨_, hrun, rfl, by simp [delimitedReader.bufLen]⟩

/-- C1 (as stated, refuted), at two inputs. (1) A reader built with `maxSize = 0` holds the
nil buffer `pool.Get(0)`: on a stream with contents `uvarint(0) ++ [] ++ rest` (so
`N = 0 <= maxSize`) `ReadMsg` panics at `d.buf[:1]` instead of returning the result of
`proto.Unmarshal`. (2) With `maxSize = 4`, on the stream with contents `uvarint(0)` whose `Read`
hands that byte over together with `io.EOF`, `ReadMsg` returns `io.EOF`, not the result of
`proto.Unmarshal` on the empty payload. -/
theorem C1_fails_maxSize_zero_or_prefix_byte_with_EOF :
    (PutUvarint 0 = [0] ∧
      delimitedReader.ReadMsg scriptReader (fun bs => (Except.ok bs : Except Error (List Byte))) 5
          (newDelimitedReader (fun _ => 0) (byteReads (PutUvarint 0) ++ [] ++ [([7, 7], none)]) 0)
        = .panic) ∧
    delimitedReader.ReadMsg scriptReader (fun bs => (Except.ok bs : Except Error (List Byte))) 5
        (newDelimitedReader (fun _ => 0) [([0], some Error.EOF)] 4) =
      .ret (.error Error.EOF, { r := [], buf := some [0, 0, 0, 0] }) :=
  ⟨⟨by decide, rfl⟩, rfl⟩

/-- C1 (amended): for `maxSize >= 1` (a Go `int`) and every stream whose `Read`s hand over the
bytes of `uvarint(N)` one per `Read` with a nil error and then the `N <= maxSize` payload bytes
in `Read`s of any sizes (`handsOver`: empty `Read`s and an error returned along with the last
payload bytes included), whatever it would return afterwards (`rest`): one `ReadMsg` call on
the reader built by `newDelimitedReader(stream, maxSize)` returns the result of
`proto.Unmarshal` on exactly the `N` payload bytes, having issued exactly those `Read`s (the
bytes they handed over are `uvarint(N) ++ payload`) and none of `rest`. -/
theorem C1_ReadMsg_consumes_frame {M : Type} (Unmarshal : List Byte → Except Error M)
    (fill : Nat → Byte) (maxSize N fuel : Nat) (payload : List Byte) (reads rest : Script)
    (hpos : 1 ≤ maxSize) (hint : (maxSize : Int) ≤ maxInt) (hpl : payload.length = N)
    (hN : N ≤ maxSize) (hreads : handsOver reads payload) (hfuel : reads.length ≤ fuel) :
    Script.bytes (byteReads (PutUvarint N) ++ reads) = PutUvarint N ++ payload ∧
    ∃ d1 : delimitedReader Script,
      delimitedReader.ReadMsg scriptReader Unmarshal fuel
          (newDelimitedReader fill (byteReads (PutUvarint N) ++ reads ++ rest) maxSize) =
        .ret (Unmarshal payload, d1) ∧
      d1.r = rest ∧ d1.bufLen = maxSize := by
  have hN63 : N < 2 ^ 63 := by
    unfold maxInt at hint
    omega
  refine ⟨by rw [Script_bytes_append, Script_bytes_byteReads, handsOver_bytes _ _ hreads], ?_⟩
  obtain ⟨d1, hread, hr, hlen⟩ := ReadMsg_script_frame Unmarshal N fuel payload reads rest
    ((List.range maxSize).map fill) (by simpa using hpos) hN63 hpl (by simpa using hN) hreads
    hfuel
  refine ⟨d1, ?_, hr, by simpa using hlen⟩
  rw [newDelimitedReader_buf fill _ maxSize hpos]
  exact hread

theorem C1_ReadMsg_consumes_frame_witness :
    Script.bytes (byteReads (PutUvarint 3) ++
        (chunkReads [[], [1, 2]] ++ [([3], some Error.EOF)])) = PutUvarint 3 ++ [1, 2, 3] ∧
    ∃ d1 : delimitedReader Script,
      delimitedReader.ReadMsg scriptReader (fun bs => (Except.ok bs : Except Error (List Byte))) 3
          (newDelimitedReader (fun _ => 0)
            (byteReads (PutUvarint 3) ++ (chunkReads [[], [1, 2]] ++ [([3], some Error.EOF)]) ++
              [([9, 9], none)]) 4) =
        .ret (Except.ok [1, 2, 3], d1) ∧
      d1.r = [([9, 9], none)] ∧ d1.bufLen = 4 :=
  C1_ReadMsg_consumes_frame _ (fun _ => 0) 4 3 3 [1, 2, 3]
    (chunkReads [[], [1, 2]] ++ [([3], some Error.EOF)]) [([9, 9], none)] (by decide) (by decide)
    rfl (by decide) (by decide) (by decide)

/-- C2 (as stated, refuted), at two inputs. (1) With `maxSize = 0` and two messages whose
serialized length is `0 <= maxSize`, the first `ReadMsg` on the written bytes `[0, 0]` panics
at `d.buf[:1]` (the reader holds the nil buffer `pool.Get(0)`). (2) With `maxSize = 4`, the
messages `[1, 2, 3]` and `[]` are written as `[3, 1, 2, 3, 0]`; on a stream that hands over the
last of these bytes together with `io.EOF`, the second `ReadMsg` returns `io.EOF` instead of
the second message. -/
theorem C2_fails_maxSize_zero_or_prefix_byte_with_EOF :
    (WriteMsg (fun m : List Byte => m) (WriteMsg (fun m : List Byte => m) [] []) [] = [0, 0] ∧
      delimitedReader.ReadMsg scriptReader (fun bs => (Except.ok bs : Except Error (List Byte))) 5
          (newDelimitedReader (fun _ => 0) (byteReads [0, 0]) 0) = .panic) ∧
    (WriteMsg (fun m : List Byte => m) (WriteMsg (fun m : List Byte => m) [] [1, 2, 3]) [] =
        [3, 1, 2, 3, 0] ∧
      delimitedReader.ReadMsg scriptReader (fun bs => (Except.ok bs : Except Error (List Byte))) 5
          (newDelimitedReader (fun _ => 0)
            [([3], none), ([1, 2, 3], none), ([0], some Error.EOF)] 4) =
        .ret (.ok [1, 2, 3], { r := [([0], some Error.EOF)], buf := some [1, 2, 3, 0] }) ∧
      delimitedReader.ReadMsg scriptReader (fun bs => (Except.ok bs : Except Error (List Byte))) 5
          { r := [([0], some Error.EOF)], buf := some [1, 2, 3, 0] } =
        .ret (.error Error.EOF, { r := [], buf := some [0, 2, 3, 0] })) :=
  ⟨⟨by decide, rfl⟩, by decide, rfl, rfl⟩

/-- C2 (amended): for `maxSize >= 1` (a Go `int`) and all messages `m1`, `m2` whose serialized
lengths are each `<= maxSize` and which `proto.Unmarshal` decodes back from their serialized
bytes: let the delimited writer write `m1` and then `m2`, and let the stream hand over the
written bytes frame by frame, the bytes of each length prefix one per `Read` with a nil error
and each payload in `Read`s of any sizes (`handsOver`). Then two `ReadMsg` calls on one reader
return `m1` and then `m2`; after the first call the stream is positioned exactly at the frame
of `m2`, after the second at its end. -/
theorem C2_write_then_read_twice {M : Type} (Marshal : M → List Byte)
    (Unmarshal : List Byte → Except Error M) (fill : Nat → Byte) (maxSize fuel : Nat)
    (m1 m2 : M) (reads1 reads2 : Script)
    (hpos : 1 ≤ maxSize) (hint : (maxSize : Int) ≤ maxInt)
    (hlen1 : (Marshal m1).length ≤ maxSize) (hlen2 : (Marshal m2).length ≤ maxSize)
    (hrt1 : Unmarshal (Marshal m1) = .ok m1) (hrt2 : Unmarshal (Marshal m2) = .ok m2)
    (hreads1 : handsOver reads1 (Marshal m1)) (hreads2 : handsOver reads2 (Marshal m2))
    (hfuel1 : reads1.length ≤ fuel) (hfuel2 : reads2.length ≤ fuel) :
    Script.bytes (byteReads (PutUvarint (Marshal m1).length) ++ reads1 ++
        (byteReads (PutUvarint (Marshal m2).length) ++ reads2)) =
      WriteMsg Marshal (WriteMsg Marshal [] m1) m2 ∧
    ∃ d1 d2 : delimitedReader Script,
      delimitedReader.ReadMsg scriptReader Unmarshal fuel
          (newDelimitedReader fill
            (byteReads (PutUvarint (Marshal m1).length) ++ reads1 ++
              (byteReads (PutUvarint (Marshal m2).length) ++ reads2)) maxSize) =
        .ret (.ok m1, d1) ∧
      d1.r = byteReads (PutUvarint (Marshal m2).length) ++ reads2 ∧
      Script.bytes d1.r = WriteMsg Marshal [] m2 ∧
      delimitedReader.ReadMsg scriptReader Unmarshal fuel d1 = .ret (.ok m2, d2) ∧
      d2.r = [] := by
  have hmax : maxSize < 2 ^ 63 := by
    unfold maxInt at hint
    omega
  have hb1 := handsOver_bytes _ _ hreads1
  have hb2 := handsOver_bytes _ _ hreads2
  refine ⟨by simp [Script_bytes_append, Script_bytes_byteReads, hb1, hb2, WriteMsg], ?_⟩
  obtain ⟨d1, hread1, hr1, hl1⟩ := ReadMsg_script_frame Unmarshal (Marshal m1).length fuel
    (Marshal m1) reads1 (byteReads (PutUvarint (Marshal m2).length) ++ reads2)
    ((List.range maxSize).map fill) (by simpa using hpos) (by omega) rfl (by simpa using hlen1)
    hreads1 hfuel1
  obtain ⟨r1, buf1⟩ := d1
  simp only at hr1
  subst hr1
  cases buf1 with
  | none =>
    simp [delimitedReader.bufLen] at hl1
    omega
  | some b1 =>
    have hb1len : b1.length = maxSize := by simpa [delimitedReader.bufLen] using hl1
    obtain ⟨d2, hread2, hr2, _⟩ := ReadMsg_script_frame Unmarshal (Marshal m2).length fuel
      (Marshal m2) reads2 [] b1 (by omega) (by omega) rfl (by omega) hreads2 hfuel2
    rw [List.append_nil] at hread2
    refine ⟨{ r := byteReads (PutUvarint (Marshal m2).length) ++ reads2, buf := some b1 }, d2,
      ?_, rfl, ?_, ?_, hr2⟩
    · rw [newDelimitedReader_buf fill _ maxSize hpos, hread1, hrt1]
    · simp [Script_bytes_append, Script_bytes_byteReads, hb2, WriteMsg]
    · rw [hread2, hrt2]

theorem C2_write_then_read_twice_witness :
    Script.bytes (byteReads (PutUvarint ([1, 2, 3] : List Byte).length) ++
          (chunkReads [[1]] ++ [([2, 3], none)]) ++
        (byteReads (PutUvarint ([4, 5] : List Byte).length) ++
          (chunkReads [] ++ [([4, 5], some Error.EOF)]))) =
      WriteMsg (fun m : List Byte => m) (WriteMsg (fun m : List Byte => m) [] [1, 2, 3]) [4, 5] ∧
    ∃ d1 d2 : delimitedReader Script,
      delimitedReader.ReadMsg scriptReader (fun bs => (Except.ok bs : Except Error (List Byte))) 3
          (newDelimitedReader (fun _ => 0)
            (byteReads (PutUvarint ([1, 2, 3] : List Byte).length) ++
                (chunkReads [[1]] ++ [([2, 3], none)]) ++
              (byteReads (PutUvarint ([4, 5] : List Byte).length) ++
                (chunkReads [] ++ [([4, 5], some Error.EOF)]))) 4) =
        .ret (.ok [1, 2, 3], d1) ∧
      d1.r = byteReads (PutUvarint ([4, 5] : List Byte).length) ++
        (chunkReads [] ++ [([4, 5], some Error.EOF)]) ∧
      Script.bytes d1.r = WriteMsg (fun m : List Byte => m) [] [4, 5] ∧
      delimitedReader.ReadMsg scriptReader (fun bs => (Except.ok bs : Except Error (List Byte)))
        3 d1 = .ret (.ok [4, 5], d2) ∧
      d2.r = [] :=
  C2_write_then_read_twice (fun m : List Byte => m) _ (fun _ => 0) 4 3 [1, 2, 3] [4, 5]
    (chunkReads [[1]] ++ [([2, 3], none)]) (chunkReads [] ++ [([4, 5], some Error.EOF)])
    (by decide) (by decide) (by decide) (by decide) rfl rfl
    (by decide) (by decide) (by decide) (by decide)

theorem ReadMsg_script_overflow {M : Type} (Unmarshal : List Byte → Except Error M)
    (fuel : Nat) (buf : List Byte) (hbuf : 0 < buf.length) :
    ∃ d1 : delimitedReader Script,
      delimitedReader.ReadMsg scriptReader Unmarshal fuel
          { r := byteReads (PutUvarint (2 ^ 63)), buf := some buf } =
        .ret (.error Error.ErrOverflow, d1) := by
  cases buf with
  | nil => simp at hbuf
  | cons b0 tail => exact ⟨_, rfl⟩

/-- C3 (as stated, refuted), at three inputs. (1) With `maxSize = 0` and a stream that starts
with the complete length prefix `uvarint(5)`, so `N = 5 > maxSize`, `ReadMsg` does not fail
with "message too large": it panics at `d.buf[:1]` on the nil buffer `pool.Get(0)`. (2) With
`maxSize = 4096` and the complete length prefix `uvarint(2^63)`, `ReadMsg` fails with the
overflow error of `varint.ReadUvarint`, not with "message too large". (3) With
`maxSize = 4096` and the complete length prefix `uvarint(5000) = [136, 39]` whose second byte
the stream hands over together with `io.EOF`, `ReadMsg` fails with `io.ErrUnexpectedEOF`. -/
theorem C3_fails_maxSize_zero_or_overflow_or_prefix_byte_with_EOF :
    ((0 < 5) ∧
      delimitedReader.ReadMsg scriptReader (fun bs => (Except.ok bs : Except Error (List Byte))) 5
          (newDelimitedReader (fun _ => 0)
            (byteReads (PutUvarint 5) ++ [([1, 2, 3, 4, 5], none)]) 0) = .panic) ∧
    ((4096 < 2 ^ 63) ∧
      ∃ d1 : delimitedReader Script,
        delimitedReader.ReadMsg scriptReader
            (fun bs => (Except.ok bs : Except Error (List Byte))) 5
            (newDelimitedReader (fun _ => 0) (byteReads (PutUvarint (2 ^ 63))) 4096) =
          .ret (.error Error.ErrOverflow, d1)) ∧
    (PutUvarint 5000 = [136, 39] ∧
      ∃ d1 : delimitedReader Script,
        delimitedReader.ReadMsg scriptReader
            (fun bs => (Except.ok bs : Except Error (List Byte))) 5
            (newDelimitedReader (fun _ => 0) [([136], none), ([39], some Error.EOF)] 4096) =
          .ret (.error Error.ErrUnexpectedEOF, d1)) := by
  refine ⟨⟨by decide, rfl⟩, ⟨by norm_num, ?_⟩, by decide, ?_⟩
  · rw [newDelimitedReader_buf _ _ 4096 (by norm_num)]
    exact ReadMsg_script_overflow _ 5 _ (by rw [List.length_map, List.length_range]; norm_num)
  · rw [newDelimitedReader_buf _ _ 4096 (by norm_num)]
    obtain ⟨d1, h, _⟩ := ReadMsg_script_prefix_err
      (fun bs => (Except.ok bs : Except Error (List Byte))) 5 [136] [39] Error.EOF []
      ((List.range 4096).map (fun _ => 0)) (by rw [List.length_map, List.length_range]; norm_num)
      (by decide) (by decide)
    exact ⟨d1, h⟩

/-- C3 (amended): for every reader built with `newDelimitedReader(stream, maxSize)` with
`maxSize >= 1` and every stream that hands over the bytes of a complete length prefix
`uvarint(N)`, `N < 2^63`, one per `Read` with a nil error, whatever it returns afterwards
(`rest`): `ReadMsg` fails with the error "message too large" if and only if `N > maxSize`
(`N = maxSize` is accepted), and when it fails this way no `Read` has been issued after those
of the length prefix. (The error value is `ReadMsg`'s own: neither `proto.Unmarshal` nor the
stream returns it.) -/
theorem C3_tooLarge_iff {M : Type} (Unmarshal : List Byte → Except Error M)
    (fill : Nat → Byte) (maxSize N fuel : Nat) (rest : Script)
    (hU : ∀ bs, Unmarshal bs ≠ .error (Error.New "message too large"))
    (hS : ∀ c ∈ rest, c.2 ≠ some (Error.New "message too large"))
    (hpos : 1 ≤ maxSize) (hN : N < 2 ^ 63) :
    ((∃ d1 : delimitedReader Script,
        delimitedReader.ReadMsg scriptReader Unmarshal fuel
          (newDelimitedReader fill (byteReads (PutUvarint N) ++ rest) maxSize) =
          .ret (.error (Error.New "message too large"), d1)) ↔ maxSize < N) ∧
      (maxSize < N → ∃ d1 : delimitedReader Script,
        delimitedReader.ReadMsg scriptReader Unmarshal fuel
          (newDelimitedReader fill (byteReads (PutUvarint N) ++ rest) maxSize) =
          .ret (.error (Error.New "message too large"), d1) ∧
        d1.r = rest ∧ d1.bufLen = maxSize) := by
  rw [newDelimitedReader_buf fill _ maxSize hpos]
  have hbuf : 0 < ((List.range maxSize).map fill).length := by simpa using hpos
  have hbig : maxSize < N → ∃ d1 : delimitedReader Script,
      delimitedReader.ReadMsg scriptReader Unmarshal fuel
        { r := byteReads (PutUvarint N) ++ rest, buf := some ((List.range maxSize).map fill) } =
        .ret (.error (Error.New "message too large"), d1) ∧
      d1.r = rest ∧ d1.bufLen = maxSize := by
    intro h
    obtain ⟨d1, hread, hr, hb⟩ := ReadMsg_script_tooLarge Unmarshal N fuel rest
      ((List.range maxSize).map fill) hbuf hN (by simpa using h)
    exact ⟨d1, hread, hr, by simpa using hb⟩
  refine ⟨⟨fun hex => ?_, fun h => ?_⟩, hbig⟩
  · by_contra hle
    obtain ⟨d1, hd1⟩ := hex
    exact ReadMsg_script_fits Unmarshal hU N fuel rest ((List.range maxSize).map fill) hS
      hbuf hN (by simpa using Nat.le_of_not_lt hle) d1 hd1
  · obtain ⟨d1, hd1, _⟩ := hbig h
    exact ⟨d1, hd1⟩

theorem C3_tooLarge_iff_witness :
    ∃ d1 : delimitedReader Script,
      delimitedReader.ReadMsg scriptReader (fun bs => (Except.ok bs : Except Error (List Byte))) 0
        (newDelimitedReader (fun _ => 0)
          (byteReads (PutUvarint 5000) ++ [([1, 2, 3], none)]) 4096) =
        .ret (.error (Error.New "message too large"), d1) ∧
      d1.r = [([1, 2, 3], none)] ∧ d1.bufLen = 4096 :=
  (C3_tooLarge_iff (fun bs => (Except.ok bs : Except Error (List Byte))) (fun _ => 0) 4096 5000 0
    [([1, 2, 3], none)] (by intro bs h; cases h)
    (by
      intro c hc
      simp only [List.mem_singleton] at hc
      subst hc
      intro h
      cases h)
    (by decide) (by norm_num)).2 (by decide)

/-- C8 (as stated, refuted): the stream's first `Read` delivers the length prefix `2`, its
second `Read` delivers the two payload bytes together with the error "connection reset";
`ReadMsg` does not return that error: it returns the decoded message, with a nil error. -/
theorem C8_read_error_dropped :
    delimitedReader.ReadMsg scriptReader (fun bs => (Except.ok bs : Except Error (List Byte))) 5
        { r := [([2], none), ([1, 2], some (Error.New "connection reset"))],
          buf := some [0, 0, 0, 0] } =
      .ret (.ok [1, 2], { r := [], buf := some [1, 2, 0, 0] }) := by
  rfl

/-- C8 (amended): on a reader that holds a buffer (of a size within Go's `int`), for a `Read`
of the stream that returns an error `e` (with or without bytes `bad`), whatever the stream
would return afterwards (`post`):
(a) if that `Read` comes after `k <= 8` bytes of a length prefix that is not complete (bytes
with the continuation bit, handed over one per `Read` with a nil error), `ReadMsg` returns `e`,
or `io.ErrUnexpectedEOF` when `e` is `io.EOF` and `k >= 1`;
(b) if it comes after a complete prefix `uvarint(N)`, `N <= maxSize`, and `Read`s with a nil
error that delivered the chunks `cs`, and the payload is still incomplete after it, `ReadMsg`
returns `e`, or `io.ErrUnexpectedEOF` when `e` is `io.EOF` and at least one payload byte was
read;
in both cases no message is returned and no `Read` is issued after the failing one;
(c) if instead that `Read` delivers the last missing payload bytes, its error is dropped:
`ReadMsg` returns the result of `proto.Unmarshal` on the `N` payload bytes. -/
theorem C8_ReadMsg_io_errors {M : Type} (Unmarshal : List Byte → Except Error M)
    (buf bad : List Byte) (e : Error) (post : Script) (fuel : Nat)
    (hbuf : 0 < buf.length) (hint : buf.length < 2 ^ 63) :
    (∀ conts : List Byte, (∀ c ∈ conts, 0x80 ≤ c.toNat) → conts.length ≤ 8 →
      ∃ d1 : delimitedReader Script,
        delimitedReader.ReadMsg scriptReader Unmarshal fuel
            { r := byteReads conts ++ (bad, some e) :: post, buf := some buf } =
          .ret (.error (if e = Error.EOF ∧ conts ≠ [] then Error.ErrUnexpectedEOF else e), d1) ∧
        d1.r = post) ∧
    (∀ (N : Nat) (cs : List (List Byte)), N ≤ buf.length → cs.length + 1 ≤ fuel →
      cs.flatten.length + bad.length < N →
      ∃ d1 : delimitedReader Script,
        delimitedReader.ReadMsg scriptReader Unmarshal fuel
            { r := byteReads (PutUvarint N) ++ chunkReads cs ++ (bad, some e) :: post,
              buf := some buf } =
          .ret (.error (if e = Error.EOF ∧ 0 < cs.flatten.length + bad.length
            then Error.ErrUnexpectedEOF else e), d1) ∧
        d1.r = post) ∧
    (∀ (N : Nat) (cs : List (List Byte)), N ≤ buf.length → cs.length + 1 ≤ fuel →
      bad ≠ [] → cs.flatten.length + bad.length = N →
      ∃ d1 : delimitedReader Script,
        delimitedReader.ReadMsg scriptReader Unmarshal fuel
            { r := byteReads (PutUvarint N) ++ chunkReads cs ++ (bad, some e) :: post,
              buf := some buf } =
          .ret (Unmarshal (cs.flatten ++ bad), d1) ∧
        d1.r = post) := by
  refine ⟨?_, ?_, ?_⟩
  · intro conts hconts hlen
    obtain ⟨d1, h, hr, _⟩ := ReadMsg_script_prefix_err Unmarshal fuel conts bad e post buf hbuf
      hconts hlen
    exact ⟨d1, h, hr⟩
  · intro N cs hfit hfuel hshort
    obtain ⟨d1, h, hr, _⟩ := ReadMsg_script_short Unmarshal N fuel cs bad e post buf hbuf
      (by omega) hfit hshort hfuel
    exact ⟨d1, h, hr⟩
  · intro N cs hfit hfuel hbad htotal
    obtain ⟨d1, h, hr, _⟩ := ReadMsg_script_frame Unmarshal N fuel (cs.flatten ++ bad)
      (chunkReads cs ++ [(bad, some e)]) post buf hbuf (by omega)
      (by rw [List.length_append]; exact htotal) hfit
      (handsOver_intro cs bad (some e) hbad) (by simpa [chunkReads] using hfuel)
    refine ⟨d1, ?_, hr⟩
    rw [← h]
    simp [List.append_assoc]

theorem C8_ReadMsg_io_errors_witness :
    (∃ d1 : delimitedReader Script,
      delimitedReader.ReadMsg scriptReader (fun bs => (Except.ok bs : Except Error (List Byte))) 5
          { r := byteReads [0x80] ++ ([], some Error.EOF) :: [], buf := some [0, 0, 0, 0] } =
        .ret (.error (if Error.EOF = Error.EOF ∧ ([0x80] : List Byte) ≠ []
          then Error.ErrUnexpectedEOF else Error.EOF), d1) ∧
      d1.r = []) ∧
    (∃ d1 : delimitedReader Script,
      delimitedReader.ReadMsg scriptReader (fun bs => (Except.ok bs : Except Error (List Byte))) 5
          { r := byteReads (PutUvarint 3) ++ chunkReads [[1]] ++
              ([], some (Error.New "connection reset")) :: [], buf := some [0, 0, 0, 0] } =
        .ret (.error (if Error.New "connection reset" = Error.EOF ∧
            0 < ([[1]] : List (List Byte)).flatten.length + ([] : List Byte).length
          then Error.ErrUnexpectedEOF else Error.New "connection reset"), d1) ∧
      d1.r = []) ∧
    (∃ d1 : delimitedReader Script,
      delimitedReader.ReadMsg scriptReader (fun bs => (Except.ok bs : Except Error (List Byte))) 5
          { r := byteReads (PutUvarint 3) ++ chunkReads [[1]] ++
              ([2, 3], some (Error.New "connection reset")) :: [], buf := some [0, 0, 0, 0] } =
        .ret (Except.ok (([[1]] : List (List Byte)).flatten ++ [2, 3]), d1) ∧
      d1.r = []) :=
  ⟨(C8_ReadMsg_io_errors (fun bs => (Except.ok bs : Except Error (List Byte)))
      [0, 0, 0, 0] [] Error.EOF [] 5 (by decide) (by norm_num)).1 [0x80] (by decide) (by decide),
    (C8_ReadMsg_io_errors (fun bs => (Except.ok bs : Except Error (List Byte)))
      [0, 0, 0, 0] [] (Error.New "connection reset") [] 5 (by decide) (by norm_num)).2.1
      3 [[1]] (by decide) (by decide) (by decide),
    (C8_ReadMsg_io_errors (fun bs => (Except.ok bs : Except Error (List Byte)))
      [0, 0, 0, 0] [2, 3] (Error.New "connection reset") [] 5 (by decide) (by norm_num)).2.2
      3 [[1]] (by decide) (by decide) (by decide) (by decide)⟩

/-! ### Counting the reads of one message -/

theorem ReadByte_reads {σ : Type} (R : Reader σ) (d d1 : delimitedReader σ) (b : Byte)
    (err : Option Error) (h : d.ReadByte R = .ret ((b, err), d1)) :
    err = (R.Read d.r 1).2.1 ∧ d1.r = (R.Read d.r 1).2.2 := by
  unfold delimitedReader.ReadByte at h
  split at h
  · cases h
  · cases h
  · simp only at h
    cases h
    exact ⟨rfl, rfl⟩

/-- The loop of `varint.ReadUvarint` on the counting reader: the same result as on the reader
itself, with one `Read` counted for every byte taken; `μ` measures what the stream has left. -/
theorem ReadUvarintLoop_counted {σ : Type} (R : Reader σ) (μ : σ → Nat)
    (hμ : ∀ r, (R.Read r 1).2.1 = none → μ (R.Read r 1).2.2 + 1 = μ r) (fuel : Nat) :
    ∀ (x s : Nat) (d d1 : delimitedReader σ) (c v : Nat) (e : Option Error),
      ReadUvarintLoop R fuel x s d = .ret ((v, e), d1) →
      ∃ k, ReadUvarintLoop (counted R) fuel x s { r := (d.r, c), buf := d.buf } =
          .ret ((v, e), { r := (d1.r, c + k), buf := d1.buf }) ∧
        (e = none → k + μ d1.r = μ d.r) := by
  induction fuel with
  | zero =>
    intro x s d d1 c v e h
    simp [ReadUvarintLoop] at h
  | succ fuel ih =>
    intro x s d d1 c v e h
    unfold ReadUvarintLoop at h
    cases hb : d.ReadByte R with
    | panic => rw [hb] at h; cases h
    | timeout => rw [hb] at h; cases h
    | ret w =>
      obtain ⟨⟨b, err⟩, d2⟩ := w
      have hc := ReadByte_counted R d d2 c (b, err) hb
      obtain ⟨herr, hr2⟩ := ReadByte_reads R d d2 b err hb
      rw [hb] at h
      cases err with
      | some e0 =>
        have hstep : ReadUvarintLoop (counted R) (fuel + 1) x s
              { r := (d.r, c), buf := d.buf } =
            (if e0 = Error.EOF ∧ s ≠ 0 then
                Exec.ret ((0, some Error.ErrUnexpectedEOF),
                  ({ r := (d2.r, c + 1), buf := d2.buf } : delimitedReader (σ × Nat)))
              else .ret ((0, some e0), { r := (d2.r, c + 1), buf := d2.buf })) := by
          rw [ReadUvarintLoop, hc]
        simp only at h
        by_cases hc0 : e0 = Error.EOF ∧ s ≠ 0
        · rw [if_pos hc0] at h
          cases h
          refine ⟨1, ?_, (fun h => by cases h)⟩
          rw [hstep, if_pos hc0]
        · rw [if_neg hc0] at h
          cases h
          refine ⟨1, ?_, (fun h => by cases h)⟩
          rw [hstep, if_neg hc0]
      | none =>
        have hstep : ReadUvarintLoop (counted R) (fuel + 1) x s
              { r := (d.r, c), buf := d.buf } =
            (if (s = 56 ∧ b.toNat ≥ 0x80) ∨ s ≥ 7 * 9 then
                Exec.ret ((0, some Error.ErrOverflow),
                  ({ r := (d2.r, c + 1), buf := d2.buf } : delimitedReader (σ × Nat)))
              else if b.toNat < 0x80 then
                if b.toNat = 0 ∧ s > 0 then
                  .ret ((0, some Error.ErrNotMinimal), { r := (d2.r, c + 1), buf := d2.buf })
                else .ret (((x ||| (b.toNat <<< s)) % 2 ^ 64, none),
                  { r := (d2.r, c + 1), buf := d2.buf })
              else ReadUvarintLoop (counted R) fuel
                ((x ||| ((b.toNat &&& 0x7f) <<< s)) % 2 ^ 64) (s + 7)
                { r := (d2.r, c + 1), buf := d2.buf }) := by
          rw [ReadUvarintLoop, hc]
        simp only at h
        have hcnt : μ d2.r + 1 = μ d.r := by
          rw [hr2]
          exact hμ d.r herr.symm
        by_cases hc1 : (s = 56 ∧ b.toNat ≥ 0x80) ∨ s ≥ 7 * 9
        · rw [if_pos hc1] at h
          cases h
          refine ⟨1, ?_, (fun h => by cases h)⟩
          rw [hstep, if_pos hc1]
        · rw [if_neg hc1] at h
          by_cases hc2 : b.toNat < 0x80
          · rw [if_pos hc2] at h
            by_cases hc3 : b.toNat = 0 ∧ s > 0
            · rw [if_pos hc3] at h
              cases h
              refine ⟨1, ?_, (fun h => by cases h)⟩
              rw [hstep, if_neg hc1, if_pos hc2, if_pos hc3]
            · rw [if_neg hc3] at h
              cases h
              refine ⟨1, ?_, (fun _ => by omega)⟩
              rw [hstep, if_neg hc1, if_pos hc2, if_neg hc3]
          · rw [if_neg hc2] at h
            obtain ⟨k, hrun, hk⟩ := ih _ _ d2 d1 (c + 1) v e h
            refine ⟨k + 1, ?_, (fun he => by have := hk he; omega)⟩
            have hadd : c + 1 + k = c + (k + 1) := by omega
            rw [hstep, if_neg hc1, if_neg hc2, hrun, hadd]

theorem Script_Read_length (r : Script) (h : (scriptReader.Read r 1).2.1 = none) :
    (scriptReader.Read r 1).2.2.length + 1 = r.length := by
  cases r with
  | nil => cases h
  | cons c tl => rfl

theorem ReadFull_counted_single (junk payload : List Byte) (e : Option Error) (rest : Script)
    (c fuel : Nat) (hlen : junk.length = payload.length) (hp : payload ≠ [])
    (hfuel : 1 ≤ fuel) :
    ReadFull (counted scriptReader) fuel ((payload, e) :: rest, c) junk =
      .ret (payload.length, none, payload, (rest, c + 1)) := by
  have hpos : 0 < payload.length := List.length_pos.mpr hp
  obtain ⟨f, hf⟩ : ∃ f, fuel = f + 1 := ⟨fuel - 1, by omega⟩
  subst hf
  have hread : (counted scriptReader).Read ((payload, e) :: rest, c) payload.length =
      (payload, e, (rest, c + 1)) := by
    show (payload.take payload.length, e, (rest, c + 1)) = _
    rw [List.take_length]
  have hcopy : copyInto junk 0 payload = payload := by
    unfold copyInto
    simp [← hlen]
  unfold ReadFull ReadAtLeast
  rw [if_neg (lt_irrefl _), hlen, ReadAtLeastLoop, if_pos ⟨hpos, rfl⟩]
  simp only [hlen, Nat.sub_zero, hread, hcopy, Nat.zero_add]
  rw [ReadAtLeastLoop_done _ _ _ _ _ _ _ (by omega)]
  simp

/-- On a stream that hands over each byte of the length prefix in a `Read` of its own (with a
nil error) and the payload in a single `Read`, a message of serialized length `N <= 4096`
costs `len(uvarint(N)) <= 2` reads for the prefix and at most one more: at most three. -/
theorem ReadMsg_three_reads {M : Type} (Unmarshal : List Byte → Except Error M)
    (buf payload : List Byte) (e : Option Error) (rest : Script) (N fuel : Nat)
    (hN : N ≤ 4096) (hpl : payload.length = N) (hbuf : 0 < buf.length) (hfuel : 1 ≤ fuel) :
    (PutUvarint N).length ≤ 2 ∧
    ∃ (out : Except Error M) (d0 d1 : delimitedReader (Script × Nat)),
      ReadUvarint (counted scriptReader)
          { r := (byteReads (PutUvarint N) ++
              (if payload = [] then [] else [(payload, e)]) ++ rest, 0),
            buf := some buf } = .ret ((N, none), d0) ∧
        d0.r.2 = (PutUvarint N).length ∧
        delimitedReader.ReadMsg (counted scriptReader) Unmarshal fuel
          { r := (byteReads (PutUvarint N) ++
              (if payload = [] then [] else [(payload, e)]) ++ rest, 0),
            buf := some buf } = .ret (out, d1) ∧
        d1.r.2 ≤ d0.r.2 + 1 ∧ d1.r.2 ≤ 3 ∧
        (N ≤ buf.length → out = Unmarshal payload ∧ d1.r.1 = rest) := by
  have hlen2 := PutUvarint_length_le_two N (by omega)
  refine ⟨hlen2, ?_⟩
  subst hpl
  cases buf with
  | nil => simp at hbuf
  | cons b0 tail =>
    obtain ⟨b, hplain⟩ := ReadUvarint_PutUvarint payload.length (by omega)
      ((if payload = [] then [] else [(payload, e)]) ++ rest) b0 tail
    obtain ⟨k, hcnt, hk⟩ := ReadUvarintLoop_counted scriptReader List.length Script_Read_length
      10 0 0 _ _ 0 _ _ hplain
    have hk2 : k = (PutUvarint payload.length).length := by
      have := hk rfl
      simp only [List.length_append, byteReads, List.length_map] at this
      omega
    simp only [Nat.zero_add] at hcnt
    have hvar : ReadUvarint (counted scriptReader)
        { r := (byteReads (PutUvarint payload.length) ++
            (if payload = [] then [] else [(payload, e)]) ++ rest, 0),
          buf := some (b0 :: tail) } =
        .ret ((payload.length, none),
          { r := ((if payload = [] then [] else [(payload, e)]) ++ rest, k),
            buf := some (b :: tail) }) := by
      rw [List.append_assoc]
      exact hcnt
    by_cases hfit : (b :: tail).length < payload.length
    · refine ⟨.error (Error.New "message too large"), _, _, hvar, hk2, ?_, Nat.le_succ _, ?_,
        fun h => ?_⟩
      · unfold delimitedReader.ReadMsg
        rw [hvar]
        have hl : delimitedReader.bufLen
            (⟨((if payload = [] then [] else [(payload, e)]) ++ rest, k), some (b :: tail)⟩ :
              delimitedReader (Script × Nat)) < payload.length := by
          simpa [delimitedReader.bufLen] using hfit
        simp only [hl, if_true]
      · show k ≤ 3
        omega
      · simp only [List.length_cons] at h hfit
        omega
    · have hl : ¬ delimitedReader.bufLen
          (⟨((if payload = [] then [] else [(payload, e)]) ++ rest, k), some (b :: tail)⟩ :
            delimitedReader (Script × Nat)) < payload.length := by
        simpa [delimitedReader.bufLen] using hfit
      have hjunk : ((b :: tail).take payload.length).length = payload.length := by
        simp only [List.length_take, List.length_cons] at *
        omega
      by_cases hp : payload = []
      · refine ⟨Unmarshal payload, _, ⟨(rest, k), some (payload ++ (b :: tail).drop payload.length)⟩,
          hvar, hk2, ?_, Nat.le_succ _, ?_, fun _ => ⟨rfl, rfl⟩⟩
        · unfold delimitedReader.ReadMsg
          rw [hvar]
          simp only [hl, if_false, sliceTo_of_fits _ _ hl, Option.getD_some]
          subst hp
          simp only [if_true, List.nil_append, List.length_nil, List.take_zero, ReadFull_empty,
            Option.map_some']
        · show k ≤ 3
          omega
      · have hfull := ReadFull_counted_single ((b :: tail).take payload.length) payload e rest k
          fuel hjunk hp hfuel
        refine ⟨Unmarshal payload, _,
          ⟨(rest, k + 1), some (payload ++ (b :: tail).drop payload.length)⟩, hvar, hk2, ?_,
          le_refl _, ?_, fun _ => ⟨rfl, rfl⟩⟩
        · unfold delimitedReader.ReadMsg
          rw [hvar]
          simp only [hl, if_false, sliceTo_of_fits _ _ hl, Option.getD_some]
          simp only [if_neg hp, List.singleton_append, hfull, Option.map_some']
        · show k + 1 ≤ 3
          omega

/-- C15 (the code at the failing input): the message `[1, 2, 3]` (`N = 3`, length prefix
`uvarint(3) = [3]`) on a stream that hands over the prefix byte in one `Read` and the payload
in a single `Read`, after three `Read`s that return `(0, nil)`; the pooled buffer still holds
`0x80` at index 0. `ReadByte` takes the stale byte for a prefix byte three times: `ReadMsg`
issues four single-byte `Read`s for the prefix, reads the length `3 << 21` and fails with
"message too large". -/
theorem C15_stale_prefix_bytes_cost_reads :
    PutUvarint 3 = [3] ∧
    ReadUvarint (counted scriptReader)
        { r := ([([], none), ([], none), ([], none), ([3], none), ([1, 2, 3], none)], 0),
          buf := some [0x80, 0, 0, 0] } =
      .ret ((3 * 2 ^ 21, none), { r := ([([1, 2, 3], none)], 4), buf := some [3, 0, 0, 0] }) ∧
    delimitedReader.ReadMsg (counted scriptReader)
        (fun bs => (Except.ok bs : Except Error (List Byte))) 5
        { r := ([([], none), ([], none), ([], none), ([3], none), ([1, 2, 3], none)], 0),
          buf := some [0x80, 0, 0, 0] } =
      .ret (.error (Error.New "message too large"),
        { r := ([([1, 2, 3], none)], 4), buf := some [3, 0, 0, 0] }) :=
  ⟨by decide, rfl, rfl⟩

/-! ### Streams that deliver a byte with every Read

On a stream whose every `Read` delivers at least one byte (`Stream`), what `ReadMsg` returns
and consumes does not depend on the bytes the buffer held before; and a `ReadByte` whose
`Read` delivered a byte returns that byte. -/

theorem ReadByte_returns_delivered {σ : Type} (R : Reader σ) (r r1 : σ) (b0 b : Byte)
    (tail l : List Byte) (err : Option Error) (h : R.Read r 1 = (b :: l, err, r1)) :
    delimitedReader.ReadByte R { r := r, buf := some (b0 :: tail) } =
      .ret ((b, err), { r := r1, buf := some (b :: tail) }) := by
  simp only [delimitedReader.ReadByte, h]

theorem copyInto_take (buf data : List Byte) (n : Nat) (h : n + data.length ≤ buf.length) :
    (copyInto buf n data).take (n + data.length) = buf.take n ++ data := by
  unfold copyInto
  have h1 : (buf.take n ++ data).length = n + data.length := by
    simp only [List.length_append, List.length_take]
    omega
  rw [← h1, List.take_left']
  rfl

theorem ReadAtLeastLoop_buffers {σ : Type} (R : Reader σ) (min fuel : Nat) :
    ∀ (n : Nat) (err : Option Error) (buf1 buf2 : List Byte) (r : σ),
      buf1.length = buf2.length → buf1.take n = buf2.take n → n ≤ buf1.length →
      (ReadAtLeastLoop R min fuel n err buf1 r = .timeout ∧
        ReadAtLeastLoop R min fuel n err buf2 r = .timeout) ∨
      ∃ (n1 : Nat) (err1 : Option Error) (c1 c2 : List Byte) (r1 : σ),
        ReadAtLeastLoop R min fuel n err buf1 r = .ret (n1, err1, c1, r1) ∧
        ReadAtLeastLoop R min fuel n err buf2 r = .ret (n1, err1, c2, r1) ∧
        c1.length = buf1.length ∧ c2.length = buf2.length ∧ c1.take n1 = c2.take n1 ∧
        n1 ≤ c1.length := by
  induction fuel with
  | zero =>
    intro n err buf1 buf2 r hlen htake hn
    unfold ReadAtLeastLoop
    by_cases hc : n < min ∧ err = none
    · exact Or.inl ⟨by rw [if_pos hc], by rw [if_pos hc]⟩
    · exact Or.inr ⟨n, err, buf1, buf2, r, by rw [if_neg hc], by rw [if_neg hc], rfl, rfl,
        htake, hn⟩
  | succ fuel ih =>
    intro n err buf1 buf2 r hlen htake hn
    unfold ReadAtLeastLoop
    by_cases hc : n < min ∧ err = none
    · rw [if_pos hc, if_pos hc, ← hlen]
      have hle := R.Read_le r (buf1.length - n)
      have hl1 := copyInto_length buf1 (R.Read r (buf1.length - n)).1 n (by omega)
      have hl2 := copyInto_length buf2 (R.Read r (buf1.length - n)).1 n (by omega)
      have ht1 := copyInto_take buf1 (R.Read r (buf1.length - n)).1 n (by omega)
      have ht2 := copyInto_take buf2 (R.Read r (buf1.length - n)).1 n (by omega)
      rcases ih (n + (R.Read r (buf1.length - n)).1.length) (R.Read r (buf1.length - n)).2.1
        (copyInto buf1 n (R.Read r (buf1.length - n)).1)
        (copyInto buf2 n (R.Read r (buf1.length - n)).1) (R.Read r (buf1.length - n)).2.2
        (by rw [hl1, hl2, hlen]) (by rw [ht1, ht2, htake]) (by rw [hl1]; omega) with
        h | ⟨n1, err1, c1, c2, r1, h1, h2, h3, h4, h5, h6⟩
      · exact Or.inl h
      · exact Or.inr ⟨n1, err1, c1, c2, r1, h1, h2, by rw [h3, hl1], by rw [h4, hl2, hlen], h5, h6⟩
    · exact Or.inr ⟨n, err, buf1, buf2, r, by rw [if_neg hc], by rw [if_neg hc], rfl, rfl,
        htake, hn⟩

theorem ReadUvarintLoop_Stream_buffers (fuel : Nat) :
    ∀ (x s : Nat) (st : Stream) (x1 x2 : Byte) (t1 t2 : List Byte),
      (ReadUvarintLoop streamReader fuel x s { r := st, buf := some (x1 :: t1) } = .timeout ∧
        ReadUvarintLoop streamReader fuel x s { r := st, buf := some (x2 :: t2) } = .timeout) ∨
      ∃ (v : Nat) (err : Option Error) (st1 : Stream) (y1 y2 : Byte),
        ReadUvarintLoop streamReader fuel x s { r := st, buf := some (x1 :: t1) } =
          .ret ((v, err), { r := st1, buf := some (y1 :: t1) }) ∧
        ReadUvarintLoop streamReader fuel x s { r := st, buf := some (x2 :: t2) } =
          .ret ((v, err), { r := st1, buf := some (y2 :: t2) }) := by
  induction fuel with
  | zero =>
    intro x s st x1 x2 t1 t2
    exact Or.inl ⟨rfl, rfl⟩
  | succ fuel ih =>
    intro x s st x1 x2 t1 t2
    obtain ⟨data, chunks⟩ := st
    cases data with
    | nil =>
      by_cases hs : s = 0
      · refine Or.inr ⟨0, some Error.EOF, { data := [], chunks := chunks }, x1, x2, ?_, ?_⟩
        · rw [ReadUvarintLoop, Stream_ReadByte_eof]
          simp [hs]
        · rw [ReadUvarintLoop, Stream_ReadByte_eof]
          simp [hs]
      · refine Or.inr ⟨0, some Error.ErrUnexpectedEOF, { data := [], chunks := chunks }, x1, x2,
          ?_, ?_⟩
        · rw [ReadUvarintLoop, Stream_ReadByte_eof]
          simp [hs]
        · rw [ReadUvarintLoop, Stream_ReadByte_eof]
          simp [hs]
    | cons a rest =>
      by_cases hc1 : (s = 56 ∧ a.toNat ≥ 0x80) ∨ s ≥ 7 * 9
      · refine Or.inr ⟨0, some Error.ErrOverflow, { data := rest, chunks := chunks.tail }, a, a,
          ?_, ?_⟩
        · rw [ReadUvarintLoop, Stream_ReadByte]
          simp only [if_pos hc1]
        · rw [ReadUvarintLoop, Stream_ReadByte]
          simp only [if_pos hc1]
      · by_cases hc2 : a.toNat < 0x80
        · by_cases hc3 : a.toNat = 0 ∧ s > 0
          · refine Or.inr ⟨0, some Error.ErrNotMinimal,
              { data := rest, chunks := chunks.tail }, a, a, ?_, ?_⟩
            · rw [ReadUvarintLoop, Stream_ReadByte]
              simp only [if_neg hc1, if_pos hc2, if_pos hc3]
            · rw [ReadUvarintLoop, Stream_ReadByte]
              simp only [if_neg hc1, if_pos hc2, if_pos hc3]
          · refine Or.inr ⟨(x ||| (a.toNat <<< s)) % 2 ^ 64, none,
              { data := rest, chunks := chunks.tail }, a, a, ?_, ?_⟩
            · rw [ReadUvarintLoop, Stream_ReadByte]
              simp only [if_neg hc1, if_pos hc2, if_neg hc3]
            · rw [ReadUvarintLoop, Stream_ReadByte]
              simp only [if_neg hc1, if_pos hc2, if_neg hc3]
        · rcases ih ((x ||| ((a.toNat &&& 0x7f) <<< s)) % 2 ^ 64) (s + 7)
            { data := rest, chunks := chunks.tail } a a t1 t2 with
            ⟨h1, h2⟩ | ⟨v, err, st1, y1, y2, h1, h2⟩
          · refine Or.inl ⟨?_, ?_⟩
            · rw [ReadUvarintLoop, Stream_ReadByte]
              simp only [if_neg hc1, if_neg hc2]
              exact h1
            · rw [ReadUvarintLoop, Stream_ReadByte]
              simp only [if_neg hc1, if_neg hc2]
              exact h2
          · refine Or.inr ⟨v, err, st1, y1, y2, ?_, ?_⟩
            · rw [ReadUvarintLoop, Stream_ReadByte]
              simp only [if_neg hc1, if_neg hc2]
              exact h1
            · rw [ReadUvarintLoop, Stream_ReadByte]
              simp only [if_neg hc1, if_neg hc2]
              exact h2

theorem ReadAtLeastLoop_ret_none {σ : Type} (R : Reader σ) (min fuel : Nat) :
    ∀ (n : Nat) (err : Option Error) (buf : List Byte) (r : σ)
      (res : Nat × Option Error × List Byte × σ),
      ReadAtLeastLoop R min fuel n err buf r = .ret res → res.2.1 = none → min ≤ res.1 := by
  induction fuel with
  | zero =>
    intro n err buf r res h hnone
    unfold ReadAtLeastLoop at h
    split at h
    · cases h
    · rename_i hc
      cases h
      simp only at hnone
      by_contra hlt
      exact hc ⟨by omega, hnone⟩
  | succ fuel ih =>
    intro n err buf r res h hnone
    unfold ReadAtLeastLoop at h
    split at h
    · exact ih _ _ _ _ res h hnone
    · rename_i hc
      cases h
      simp only at hnone
      by_contra hlt
      exact hc ⟨by omega, hnone⟩

theorem ReadFull_buffers {σ : Type} (R : Reader σ) (fuel : Nat) (r : σ) (buf1 buf2 : List Byte)
    (hlen : buf1.length = buf2.length) :
    (ReadFull R fuel r buf1 = .timeout ∧ ReadFull R fuel r buf2 = .timeout) ∨
    ∃ (n1 : Nat) (err1 : Option Error) (c1 c2 : List Byte) (r1 : σ),
      ReadFull R fuel r buf1 = .ret (n1, err1, c1, r1) ∧
      ReadFull R fuel r buf2 = .ret (n1, err1, c2, r1) ∧
      c1.length = buf1.length ∧ c2.length = buf2.length ∧ (err1 = none → c1 = c2) := by
  unfold ReadFull ReadAtLeast
  rw [if_neg (lt_irrefl _), if_neg (lt_irrefl _), ← hlen]
  rcases ReadAtLeastLoop_buffers R buf1.length fuel 0 none buf1 buf2 r hlen (by simp)
    (Nat.zero_le _) with ⟨h1, h2⟩ | ⟨n1, err1, c1, c2, r1, h1, h2, h3, h4, h5, h6⟩
  · exact Or.inl ⟨by rw [h1], by rw [h2]⟩
  · rw [h1, h2]
    simp only
    by_cases hge : n1 ≥ buf1.length
    · refine Or.inr ⟨n1, none, c1, c2, r1, by rw [if_pos hge], by rw [if_pos hge], h3, h4.trans hlen.symm,
        fun _ => ?_⟩
      have hn : n1 = c1.length := by omega
      have e1 : c1.take n1 = c1 := List.take_of_length_le (by omega)
      have e2 : c2.take n1 = c2 := List.take_of_length_le (by omega)
      rw [← e1, ← e2]
      exact h5
    · by_cases hc : n1 > 0 ∧ err1 = some Error.EOF
      · exact Or.inr ⟨n1, some Error.ErrUnexpectedEOF, c1, c2, r1,
          by rw [if_neg hge, if_pos hc], by rw [if_neg hge, if_pos hc], h3, h4.trans hlen.symm,
          fun h => by cases h⟩
      · cases err1 with
        | none =>
          -- a loop that returns without an error has reached `min`
          refine Or.inr ⟨n1, none, c1, c2, r1, by rw [if_neg hge, if_neg hc],
            by rw [if_neg hge, if_neg hc], h3, h4.trans hlen.symm, fun _ => ?_⟩
          exact absurd h1 (by
            intro hret
            have := ReadAtLeastLoop_ret_none R buf1.length fuel 0 none buf1 r _ hret rfl
            simp only at this
            omega)
        | some e =>
          exact Or.inr ⟨n1, some e, c1, c2, r1, by rw [if_neg hge, if_neg hc],
            by rw [if_neg hge, if_neg hc], h3, h4.trans hlen.symm, fun h => by cases h⟩

theorem ReadMsg_Stream_buffer_independent {M : Type} (Unmarshal : List Byte → Except Error M)
    (fuel : Nat) (st : Stream) (b1 b2 : List Byte) (hlen : b1.length = b2.length) :
    observe (delimitedReader.ReadMsg streamReader Unmarshal fuel { r := st, buf := some b1 }) =
      observe (delimitedReader.ReadMsg streamReader Unmarshal fuel { r := st, buf := some b2 }) := by
  cases b1 with
  | nil =>
    cases b2 with
    | nil => rfl
    | cons x2 t2 => simp at hlen
  | cons x1 t1 =>
    cases b2 with
    | nil => simp at hlen
    | cons x2 t2 =>
      have ht : t1.length = t2.length := by simpa using hlen
      unfold delimitedReader.ReadMsg ReadUvarint
      rcases ReadUvarintLoop_Stream_buffers 10 0 0 st x1 x2 t1 t2 with
        ⟨h1, h2⟩ | ⟨v, err, st1, y1, y2, h1, h2⟩
      · rw [h1, h2]
      · rw [h1, h2]
        cases err with
        | some e => simp [observe, delimitedReader.bufLen, ht]
        | none =>
          simp only [delimitedReader.bufLen, List.length_cons, Option.getD_some, ht]
          by_cases hbig : t2.length + 1 < v
          · simp [hbig, observe, delimitedReader.bufLen, ht]
          · rw [if_neg hbig, if_neg hbig, sliceTo_some (y1 :: t1) v (by simp only [List.length_cons]; omega),
              sliceTo_some (y2 :: t2) v (by simp only [List.length_cons]; omega)]
            simp only
            have hl : ((y1 :: t1).take v).length = ((y2 :: t2).take v).length := by
              simp [ht]
            rcases ReadFull_buffers streamReader fuel st1 _ _ hl with
              ⟨f1, f2⟩ | ⟨n1, err1, c1, c2, r1, f1, f2, g1, g2, g3⟩
            · rw [f1, f2]
            · rw [f1, f2]
              have hc : c1.length = c2.length := by rw [g1, g2, hl]
              cases err1 with
              | some e => simp [observe, delimitedReader.bufLen, ht, hc]
              | none =>
                have := g3 rfl
                subst this
                simp [observe, delimitedReader.bufLen, ht]

end relay
